import Mathlib

/-!
Verification of the component dependency-graph orchestrator.

The Go source is shallowly embedded: the `component` package's
`Component` record, `System` struct and their methods become pure Lean
functions over explicit state.  User-supplied `Lifecycle` values are an
abstract type `V`; the behaviour of a component's lifecycle (its
`Start`/`Stop` methods) is an oracle `Behavior V` keyed by the component
name, and every invocation of a lifecycle's start/stop is recorded in an
event trace so that claims about which lifecycles were invoked, how
often and with which dependency context can be stated.  Go maps are
embedded as association lists (`components`, whose key set is fixed) or
as total functions with a zero default (`graph`, `inDegree`), matching
Go's zero-value semantics for map reads.  Errors are the formatted
message strings the Go code produces.
-/

namespace DepGraph

universe u

variable {α : Type u} {V : Type u}

/-- Association-list lookup, mirroring a Go map read (first binding wins;
the embedding keeps key sets duplicate-free where Go guarantees it). -/
def lookupA : List (String × α) → String → Option α
  | [], _ => none
  | (k, v) :: rest, key => if k = key then some v else lookupA rest key

/-- Association-list write, mirroring a Go map assignment. -/
def updateA : List (String × α) → String → α → List (String × α)
  | [], key, v => [(key, v)]
  | (k, w) :: rest, key, v =>
    if k = key then (key, v) :: rest else (k, w) :: updateA rest key v

/-- The key set of an association list. -/
def keysOf (l : List (String × α)) : List String := l.map Prod.fst

/-- `component.Context`: the map from dependency name to lifecycle value. -/
abbrev Ctx (V : Type u) := List (String × V)

/-- The `Component` record from `component.go`: key, wrapped lifecycle
instance, declared dependency names, cached start result and started flag. -/
structure Component (V : Type u) where
  key : String
  inst : V
  dependencies : List String
  result : Option V
  started : Bool
deriving DecidableEq

/-- `component.Define`: a fresh record with no result, not started. -/
def define (key : String) (inst : V) (dependencies : List String) : Component V :=
  ⟨key, inst, dependencies, none, false⟩

/-- The behaviour of the user-supplied lifecycles, keyed by component name:
what the wrapped `Lifecycle.Start` returns (a value or an error) and what
`Lifecycle.Stop` returns (`none` = success). -/
structure Behavior (V : Type u) where
  start : String → Ctx V → Except String V
  stop : String → Ctx V → Option String

/-- One observable invocation of a wrapped lifecycle's start or stop. -/
inductive Event (V : Type u) where
  | startCall (name : String) (ctx : Ctx V)
  | stopCall (name : String)
deriving DecidableEq

/-- The component name an event belongs to. -/
def Event.name : Event V → String
  | .startCall n _ => n
  | .stopCall n => n

/-- `Component.Start` from `component.go`: if already started, return the
wrapped instance with no lifecycle call; otherwise invoke the lifecycle's
start, and on success cache the result and set the started flag.  Returns
the updated record, the trace of lifecycle invocations, and the result. -/
def Component.start (B : Behavior V) (c : Component V) (ctx : Ctx V) :
    Component V × List (Event V) × Except String V :=
  if c.started then (c, [], .ok c.inst)
  else
    match B.start c.key ctx with
    | .error e => (c, [.startCall c.key ctx], .error ("failed to start component: " ++ e))
    | .ok r => ({ c with result := some r, started := true }, [.startCall c.key ctx], .ok r)

/-- `Component.Stop` from `component.go`: if not started, no-op; otherwise
invoke the lifecycle's stop; on error return it wrapped (the started flag
is only cleared on the success path, as in the source). -/
def Component.stop (B : Behavior V) (c : Component V) (ctx : Ctx V) :
    Component V × List (Event V) × Option String :=
  if !c.started then (c, [], none)
  else
    match B.stop c.key ctx with
    | some e => (c, [.stopCall c.key], some ("failed to stop component: " ++ e))
    | none => ({ c with started := false }, [.stopCall c.key], none)

/-- `Component.IsStarted`. -/
def Component.isStarted (c : Component V) : Bool := c.started

/-- The `System` struct from `system.go`. -/
structure System (V : Type u) where
  components : List (String × Component V)
  started : Bool
  context : Ctx V
deriving DecidableEq

/-- `component.CreateSystem`. -/
def createSystem (comps : List (String × Component V)) : System V :=
  ⟨comps, false, []⟩

/-- The declared dependencies of a registered name (empty if absent). -/
def depsOf (comps : List (String × Component V)) (name : String) : List String :=
  match lookupA comps name with
  | some c => c.dependencies
  | none => []

/-- The dependency edge relation among registered components: `a` depends
on `b` and both names are registered.  Edges to unregistered names are
not part of the graph, matching the cycle checker's skip. -/
def DepEdge (comps : List (String × Component V)) (a b : String) : Prop :=
  (lookupA comps a).isSome = true ∧ (lookupA comps b).isSome = true ∧ b ∈ depsOf comps a

instance (comps : List (String × Component V)) (a b : String) :
    Decidable (DepEdge comps a b) := by
  unfold DepEdge; infer_instance

/-- A cycle among the registered dependency edges. -/
def HasCycle (comps : List (String × Component V)) : Prop :=
  ∃ z, Relation.TransGen (DepEdge comps) z z

/-- The loop over a component's dependencies inside `System.isCyclic`:
unregistered dependencies are skipped; a visited dependency on the
recursion stack is a cycle; an unvisited one is recursed into via
`recCall` (one fuel level down in `isCyclic`). -/
def isCyclicDeps (comps : List (String × Component V))
    (recCall : String → List String → List String → Bool × List String) :
    List String → List String → List String → Bool × List String
  | [], visited, _ => (false, visited)
  | dep :: rest, visited, recStack =>
    match lookupA comps dep with
    | none => isCyclicDeps comps recCall rest visited recStack
    | some _ =>
      if dep ∈ visited then
        if dep ∈ recStack then (true, visited)
        else isCyclicDeps comps recCall rest visited recStack
      else
        match recCall dep visited recStack with
        | (true, v) => (true, v)
        | (false, v) => isCyclicDeps comps recCall rest v recStack

/-- `System.isCyclic` from `system.go`: depth-first traversal.  The
`visited` map is threaded through (it only grows); the recursion-stack map
is passed down only, since on the `false` path the source restores it to
its entry value before returning, and on the `true` path it is discarded.
The fuel argument bounds the recursion depth; `checkCyclicDependencies`
supplies `comps.length + 1`, which never runs out (each recursive call
visits a previously unvisited registered name). -/
def isCyclic (comps : List (String × Component V)) :
    Nat → String → List String → List String → Bool × List String
  | 0, _, visited, _ => (false, visited)
  | fuel + 1, name, visited, recStack =>
    match lookupA comps name with
    | none => (false, name :: visited)
    | some c =>
      isCyclicDeps comps (isCyclic comps fuel) c.dependencies
        (name :: visited) (name :: recStack)

/-- The loop in `System.checkCyclicDependencies`: run the DFS from every
not-yet-visited registered name. -/
def checkCyclicLoop (comps : List (String × Component V)) :
    List String → List String → Option String
  | [], _ => none
  | name :: rest, visited =>
    if name ∈ visited then checkCyclicLoop comps rest visited
    else
      match isCyclic comps (comps.length + 1) name visited [] with
      | (true, _) => some ("cyclic dependency detected involving component " ++ name)
      | (false, v) => checkCyclicLoop comps rest v

/-- `System.checkCyclicDependencies`. -/
def checkCyclicDependencies (comps : List (String × Component V)) : Option String :=
  checkCyclicLoop comps (keysOf comps) []

/-- The inner loop of `System.getOrderedComponents` that records one
component's dependency edges: each dependency must be registered, the
dependents-adjacency of the dependency gains this component, and this
component's in-degree is incremented. -/
def addEdges (comps : List (String × Component V)) (name : String) :
    List String → (String → List String) → (String → Int) →
    Except String ((String → List String) × (String → Int))
  | [], g, d => .ok (g, d)
  | dep :: rest, g, d =>
    if (lookupA comps dep).isSome then
      addEdges comps name rest
        (fun k => if k = dep then g dep ++ [name] else g k)
        (fun k => if k = name then d name + 1 else d k)
    else
      .error ("dependency " ++ dep ++ " not found for component " ++ name)

/-- The graph/in-degree construction loop of `System.getOrderedComponents`.
The Go code first zero-initialises both maps over all names; embedding the
maps as total functions with default `[]`/`0` makes that a no-op. -/
def buildGraph (comps : List (String × Component V)) :
    List (String × Component V) → (String → List String) → (String → Int) →
    Except String ((String → List String) × (String → Int))
  | [], g, d => .ok (g, d)
  | (name, c) :: rest, g, d =>
    match addEdges comps name c.dependencies g d with
    | .error e => .error e
    | .ok (g', d') => buildGraph comps rest g' d'

/-- Lexicographic comparison of character lists, the order `sort.Strings`
sorts by (UTF-8 byte order coincides with scalar-value order). -/
def strLeB : List Char → List Char → Bool
  | [], _ => true
  | _ :: _, [] => false
  | a :: as, b :: bs =>
    if a < b then true
    else if a = b then strLeB as bs
    else false

/-- The string order used by `sort.Strings` in `getOrderedComponents`. -/
def strLe (a b : String) : Bool := strLeB a.data b.data

/-- `strLe` as a relation for `List.insertionSort`. -/
def strRel (a b : String) : Prop := strLe a b = true

instance : DecidableRel strRel := fun a b => instDecidableEqBool (strLe a b) true

/-- The neighbour-processing loop inside Kahn's algorithm: decrement each
dependent's in-degree, enqueueing those that reach exactly zero. -/
def processNeighbors : List String → (String → Int) → List String →
    (String → Int) × List String
  | [], d, q => (d, q)
  | n :: rest, d, q =>
    let d' : String → Int := fun k => if k = n then d n - 1 else d k
    if d' n = 0 then processNeighbors rest d' (q ++ [n])
    else processNeighbors rest d' q

/-- The topological-sort loop of `System.getOrderedComponents`: while the
queue is nonempty, sort it, emit its head, and process that component's
dependents.  The fuel bounds the iteration count; `getOrderedComponents`
supplies one more than the number of components plus declared edges, which
provably never runs out. -/
def kahnLoop (g : String → List String) :
    Nat → List String → (String → Int) → List String → List String
  | 0, _, _, res => res
  | fuel + 1, queue, d, res =>
    match List.insertionSort strRel queue with
    | [] => res
    | current :: rest =>
      match processNeighbors (g current) d rest with
      | (d', q') => kahnLoop g fuel q' d' (res ++ [current])

/-- Total number of declared dependency edges (with multiplicity). -/
def totalDeps (comps : List (String × Component V)) : Nat :=
  (comps.map (fun p => p.2.dependencies.length)).sum

/-- `System.getOrderedComponents`: validate that every dependency is
registered while building the graph, run Kahn's algorithm seeded with the
zero-in-degree names, and fail if not every component was emitted. -/
def getOrderedComponents (comps : List (String × Component V)) :
    Except String (List String) :=
  match buildGraph comps comps (fun _ => []) (fun _ => 0) with
  | .error e => .error e
  | .ok (g, d) =>
    let queue := (keysOf comps).filter (fun k => d k == 0)
    let result := kahnLoop g (comps.length + totalDeps comps + 1) queue d []
    if result.length = comps.length then .ok result
    else .error "cyclic dependency detected"

/-- The per-component dependency-context construction in `System.Start`:
each declared dependency must be registered and already started, and the
context entry stores the dependency record's wrapped instance. -/
def buildCtx (comps : List (String × Component V)) (name : String) :
    List String → Ctx V → Except String (Ctx V)
  | [], ctx => .ok ctx
  | dep :: rest, ctx =>
    match lookupA comps dep with
    | none => .error ("dependency " ++ dep ++ " not found for component " ++ name)
    | some depComp =>
      if depComp.started then buildCtx comps name rest (updateA ctx dep depComp.inst)
      else .error ("dependency " ++ dep ++ " not started for component " ++ name)

/-- The start loop of `System.Start`: walk the order, build each
component's dependency context, start it, and record its result in the
system context; abort on the first error, keeping all updates so far. -/
def startLoop (B : Behavior V) :
    List String → List (String × Component V) → Ctx V →
    List (String × Component V) × Ctx V × List (Event V) × Option String
  | [], comps, sctx => (comps, sctx, [], none)
  | name :: rest, comps, sctx =>
    match lookupA comps name with
    | none =>
      -- unreachable: the order only contains registered names
      (comps, sctx, [], some ("component " ++ name ++ " not found"))
    | some comp =>
      match buildCtx comps name comp.dependencies [] with
      | .error e => (comps, sctx, [], some e)
      | .ok ctx =>
        match comp.start B ctx with
        | (comp', evs, .error e) =>
          (updateA comps name comp', sctx, evs,
            some ("failed to start component " ++ name ++ ": " ++ e))
        | (comp', evs, .ok lc) =>
          match startLoop B rest (updateA comps name comp') (updateA sctx name lc) with
          | (comps', sctx', evs', r) => (comps', sctx', evs ++ evs', r)

/-- `System.Start`: no-op when started; otherwise check for cycles, compute
the order and run the start loop; only when every component started is the
system marked started. -/
def System.start (B : Behavior V) (s : System V) :
    System V × List (Event V) × Option String :=
  if s.started then (s, [], none)
  else
    match checkCyclicDependencies s.components with
    | some e => (s, [], some e)
    | none =>
      match getOrderedComponents s.components with
      | .error e => (s, [], some e)
      | .ok order =>
        match startLoop B order s.components s.context with
        | (comps', sctx', evs, some e) =>
          ({ s with components := comps', context := sctx' }, evs, some e)
        | (comps', sctx', evs, none) => (⟨comps', true, sctx'⟩, evs, none)

/-- The stop loop of `System.Stop`: stop every component in the given
(already reversed) order with the whole system context, keeping only the
most recent wrapped error. -/
def stopLoop (B : Behavior V) (sctx : Ctx V) :
    List String → List (String × Component V) → Option String →
    List (String × Component V) × List (Event V) × Option String
  | [], comps, lastErr => (comps, [], lastErr)
  | name :: rest, comps, lastErr =>
    match lookupA comps name with
    | none =>
      -- unreachable: the order only contains registered names
      stopLoop B sctx rest comps lastErr
    | some comp =>
      match comp.stop B sctx with
      | (comp', evs, r) =>
        let lastErr' := match r with
          | some e => some ("failed to stop component " ++ name ++ ": " ++ e)
          | none => lastErr
        match stopLoop B sctx rest (updateA comps name comp') lastErr' with
        | (comps', evs', r') => (comps', evs ++ evs', r')

/-- `System.Stop`: no-op when not started; otherwise recompute the order,
reverse it, stop every component, and mark the system not started in all
cases, returning the most recent stop error. -/
def System.stop (B : Behavior V) (s : System V) :
    System V × List (Event V) × Option String :=
  if !s.started then (s, [], none)
  else
    match getOrderedComponents s.components with
    | .error e => (s, [], some e)
    | .ok order =>
      match stopLoop B s.context order.reverse s.components none with
      | (comps', evs, lastErr) =>
        ({ s with components := comps', started := false }, evs, lastErr)

/-- `System.GetContext` (the defensive copy is the identity on values). -/
def System.getContext (s : System V) : Ctx V := s.context

/-! ### Basic association-list lemmas -/

theorem lookupA_updateA (l : List (String × α)) (k k' : String) (v : α) :
    lookupA (updateA l k v) k' = if k = k' then some v else lookupA l k' := by
  induction l with
  | nil =>
    by_cases h : k = k' <;> simp [updateA, lookupA, h]
  | cons p rest ih =>
    obtain ⟨pk, pv⟩ := p
    by_cases hpk : pk = k
    · subst hpk
      by_cases h : pk = k' <;> simp [updateA, lookupA, h]
    · by_cases h : k = k'
      · subst h
        simp [updateA, lookupA, hpk, ih]
      · by_cases h2 : pk = k'
        · subst h2
          have hk : ¬ k = pk := fun hh => hpk hh.symm
          simp [updateA, lookupA, hpk, hk]
        · simp [updateA, lookupA, hpk, h, h2, ih]

theorem keysOf_updateA (l : List (String × α)) (k : String) (v : α)
    (h : k ∈ keysOf l) : keysOf (updateA l k v) = keysOf l := by
  induction l with
  | nil => simp [keysOf] at h
  | cons p rest ih =>
    obtain ⟨pk, pv⟩ := p
    by_cases hpk : pk = k
    · subst hpk; simp [updateA, keysOf]
    · have hmem : k ∈ keysOf rest := by
        simp only [keysOf, List.map_cons, List.mem_cons] at h
        rcases h with h1 | h1
        · exact absurd h1.symm hpk
        · exact h1
      have hrec := ih hmem
      simp only [keysOf] at hrec
      simp only [updateA, if_neg hpk, keysOf, List.map_cons]
      rw [hrec]

theorem lookupA_isSome_iff_mem_keysOf (l : List (String × α)) (k : String) :
    (lookupA l k).isSome = true ↔ k ∈ keysOf l := by
  induction l with
  | nil => simp [lookupA, keysOf]
  | cons p rest ih =>
    obtain ⟨pk, pv⟩ := p
    by_cases h : pk = k
    · subst h; simp [lookupA, keysOf]
    · simp [lookupA, h, keysOf, ih]
      intro hk; exact absurd hk.symm h

/-! ### Claims C2 and C3: the Component record's stop and start -/

/-- C2 (amended): for a started record, `Component.Stop` invokes the
wrapped lifecycle's stop; on success it clears the started flag and
returns no error; when the lifecycle's stop returns an error the record's
started flag REMAINS true and the error is returned wrapped with the
fixed prefix `failed to stop component:` (the component's name is added
only later by `System.Stop`). -/
theorem c2_component_stop (B : Behavior V) (c : Component V) (ctx : Ctx V)
    (h : c.started = true) :
    (B.stop c.key ctx = none →
      Component.stop B c ctx = ({ c with started := false }, [.stopCall c.key], none)) ∧
    (∀ e, B.stop c.key ctx = some e →
      Component.stop B c ctx =
        (c, [.stopCall c.key], some ("failed to stop component: " ++ e))) := by
  constructor
  · intro hb
    simp [Component.stop, h, hb]
  · intro e hb
    simp [Component.stop, h, hb]

/-- A started record whose lifecycle stop always fails. -/
def c2Comp : Component Nat := ⟨"zz", 0, [], none, true⟩

/-- A behaviour whose stop always fails with `boom`. -/
def c2B : Behavior Nat := ⟨fun _ _ => .ok 1, fun _ _ => some "boom"⟩

/-- C2 witness: the amended claim evaluated on a concrete started record
with a failing stop. -/
theorem c2_component_stop_witness :
    Component.stop c2B c2Comp [] =
      (c2Comp, [.stopCall "zz"], some ("failed to stop component: boom")) :=
  (c2_component_stop c2B c2Comp [] rfl).2 "boom" rfl

/-- C2 counterexample: the claim as stated says the started flag is set to
false even when the lifecycle's stop errors; on this concrete record the
stop errors and the flag remains `true`, and the returned error does not
mention the component's name `zz`. -/
theorem c2_counterexample :
    ¬ ((Component.stop c2B c2Comp []).1.started = false) ∧
    (Component.stop c2B c2Comp []).2.2 = some "failed to stop component: boom" := by
  constructor
  · decide
  · rfl

/-- C3 (amended): for a started record, `Component.Start` is a complete
no-op returning the wrapped lifecycle INSTANCE (`c.instance`), not the
cached result of the last successful lifecycle start: no lifecycle call is
made and no field changes. -/
theorem c3_start_when_started (B : Behavior V) (c : Component V) (ctx : Ctx V)
    (h : c.started = true) :
    Component.start B c ctx = (c, [], .ok c.inst) := by
  simp [Component.start, h]

/-- A behaviour whose start returns the value 1 (distinct from the
instance 0 of `c3Comp`). -/
def c3B : Behavior Nat := ⟨fun _ _ => .ok 1, fun _ _ => none⟩

/-- A fresh record with instance 0. -/
def c3Comp : Component Nat := define "a" 0 []

/-- The record after its first (successful) start: result 1, started. -/
def c3Started : Component Nat := (Component.start c3B c3Comp []).1

/-- C3 counterexample: after a successful start that returned 1, the
record's cached result is 1 but a second `Component.Start` returns the
instance 0, not the cached result 1 — refuting the claim as stated. -/
theorem c3_counterexample :
    c3Started.result = some 1 ∧ c3Started.started = true ∧
    (Component.start c3B c3Started []).2.2 = .ok 0 ∧
    ¬ ((Component.start c3B c3Started []).2.2 = .ok 1) := by
  refine ⟨rfl, rfl, rfl, ?_⟩
  intro h
  have h0 : (Component.start c3B c3Started []).2.2 = Except.ok 0 := rfl
  rw [h0] at h
  injection h with h1
  exact absurd h1 (by decide)

/-- C3 witness: the amended claim evaluated on the concrete started
record. -/
theorem c3_start_when_started_witness :
    Component.start c3B c3Started [] = (c3Started, [], .ok 0) :=
  c3_start_when_started c3B c3Started [] rfl

/-! ### Claim C1: the dependency context handed to each start call -/

/-- The fields of a component record that the orchestrator never
mutates. -/
def shape (c : Component V) : String × V × List String :=
  (c.key, c.inst, c.dependencies)

/-- Two component maps that agree on every record up to the mutable
`result`/`started` fields. -/
def SameShape (l₁ l₂ : List (String × Component V)) : Prop :=
  ∀ k, (lookupA l₁ k).map shape = (lookupA l₂ k).map shape

/-- Every record carries the map key it is registered under (the way
`CreateSystem` maps are built from `Define`/`Key()` in the source). -/
def WellKeyed (comps : List (String × Component V)) : Prop :=
  ∀ k c, lookupA comps k = some c → c.key = k

theorem lookupA_mem {l : List (String × α)} {k : String} {v : α}
    (h : lookupA l k = some v) : (k, v) ∈ l := by
  induction l with
  | nil => simp [lookupA] at h
  | cons p rest ih =>
    obtain ⟨pk, pv⟩ := p
    simp only [lookupA] at h
    by_cases hpk : pk = k
    · rw [if_pos hpk] at h
      cases h
      subst hpk
      exact List.mem_cons_self _ _
    · rw [if_neg hpk] at h
      exact List.mem_cons_of_mem _ (ih h)

theorem wellKeyed_of_forall (comps : List (String × Component V))
    (h : ∀ p ∈ comps, p.2.key = p.1) : WellKeyed comps :=
  fun k c hc => h (k, c) (lookupA_mem hc)

theorem sameShape_refl (l : List (String × Component V)) : SameShape l l :=
  fun _ => rfl

theorem sameShape_updateA {comps : List (String × Component V)} {name : String}
    {comp comp' : Component V} (hl : lookupA comps name = some comp)
    (hs : shape comp' = shape comp) :
    SameShape (updateA comps name comp') comps := by
  intro k
  rw [lookupA_updateA]
  by_cases h : name = k
  · subst h; rw [hl, if_pos rfl, Option.map_some', Option.map_some', hs]
  · rw [if_neg h]

theorem sameShape_depsOf {l₁ l₂ : List (String × Component V)}
    (h : SameShape l₁ l₂) (n : String) : depsOf l₁ n = depsOf l₂ n := by
  have := h n
  unfold depsOf
  cases h₁ : lookupA l₁ n <;> cases h₂ : lookupA l₂ n <;>
    rw [h₁, h₂] at this <;> simp_all [shape]

theorem sameShape_instMap {l₁ l₂ : List (String × Component V)}
    (h : SameShape l₁ l₂) (n : String) :
    (lookupA l₁ n).map (fun c => c.inst) = (lookupA l₂ n).map (fun c => c.inst) := by
  have := h n
  cases h₁ : lookupA l₁ n <;> cases h₂ : lookupA l₂ n <;>
    rw [h₁, h₂] at this <;> simp_all [shape]

theorem sameShape_isSome {l₁ l₂ : List (String × Component V)}
    (h : SameShape l₁ l₂) (n : String) :
    (lookupA l₁ n).isSome = (lookupA l₂ n).isSome := by
  have := h n
  cases h₁ : lookupA l₁ n <;> cases h₂ : lookupA l₂ n <;>
    rw [h₁, h₂] at this <;> simp_all

theorem wellKeyed_updateA {comps : List (String × Component V)} {name : String}
    {comp comp' : Component V} (hwk : WellKeyed comps)
    (hl : lookupA comps name = some comp) (hk : comp'.key = comp.key) :
    WellKeyed (updateA comps name comp') := by
  intro k c hc
  rw [lookupA_updateA] at hc
  by_cases h : name = k
  · rw [if_pos h] at hc
    cases hc
    rw [hk, hwk name comp hl, h]
  · rw [if_neg h] at hc
    exact hwk k c hc

/-- What `buildCtx` produces on success: every listed dependency is
registered, started, and bound in the context to its record's instance;
unlisted names keep their binding from the initial context. -/
theorem buildCtx_ok (comps : List (String × Component V)) (name : String) :
    ∀ (l : List String) (ctx0 ctx : Ctx V),
      buildCtx comps name l ctx0 = .ok ctx →
      (∀ d ∈ l, ∃ dc, lookupA comps d = some dc ∧ dc.started = true ∧
        lookupA ctx d = some dc.inst) ∧
      (∀ d, d ∉ l → lookupA ctx d = lookupA ctx0 d) := by
  intro l
  induction l with
  | nil =>
    intro ctx0 ctx h
    simp only [buildCtx, Except.ok.injEq] at h
    subst h
    exact ⟨by simp, fun d _ => rfl⟩
  | cons dep rest ih =>
    intro ctx0 ctx h
    simp only [buildCtx] at h
    cases hdep : lookupA comps dep with
    | none => rw [hdep] at h; exact absurd h (by simp)
    | some depComp =>
      rw [hdep] at h
      dsimp only at h
      cases hst : depComp.started with
      | false =>
        rw [hst] at h
        exact absurd h (by simp)
      | true =>
        rw [hst] at h
        rw [if_pos rfl] at h
        obtain ⟨h1, h2⟩ := ih (updateA ctx0 dep depComp.inst) ctx h
        constructor
        · intro d hd
          rcases List.mem_cons.mp hd with hd | hd
          · subst hd
            by_cases hdr : d ∈ rest
            · exact h1 d hdr
            · refine ⟨depComp, hdep, hst, ?_⟩
              rw [h2 d hdr, lookupA_updateA, if_pos rfl]
          · exact h1 d hd
        · intro d hd
          have hd1 : d ≠ dep := fun h' => hd (h' ▸ List.mem_cons_self dep rest)
          have hd2 : d ∉ rest := fun h' => hd (List.mem_cons_of_mem _ h')
          rw [h2 d hd2, lookupA_updateA, if_neg (fun h' => hd1 h'.symm)]

/-- Every recorded lifecycle start call during the start loop received a
context binding exactly the component's declared dependency names, each to
the dependency record's wrapped instance. -/
theorem startLoop_trace (B : Behavior V) :
    ∀ (l : List String) (comps : List (String × Component V)) (sctx : Ctx V),
      WellKeyed comps →
      ∀ name ctx, Event.startCall name ctx ∈ (startLoop B l comps sctx).2.2.1 →
      (lookupA comps name).isSome = true ∧
      ∀ d, lookupA ctx d =
        if d ∈ depsOf comps name then (lookupA comps d).map (fun c => c.inst)
        else none := by
  intro l
  induction l with
  | nil => intro comps sctx hwk name ctx hev; simp [startLoop] at hev
  | cons name0 rest ih =>
    intro comps sctx hwk name ctx hev
    simp only [startLoop] at hev
    cases hl : lookupA comps name0 with
    | none => rw [hl] at hev; simp at hev
    | some comp =>
      rw [hl] at hev
      dsimp only at hev
      cases hb : buildCtx comps name0 comp.dependencies [] with
      | error e => rw [hb] at hev; simp at hev
      | ok ctx0 =>
        rw [hb] at hev
        dsimp only at hev
        have hhead : ∀ hcmem : Event.startCall name ctx = Event.startCall comp.key ctx0,
            (lookupA comps name).isSome = true ∧
            ∀ d, lookupA ctx d =
              if d ∈ depsOf comps name then (lookupA comps d).map (fun c => c.inst)
              else none := by
          intro hc
          obtain ⟨hn, hcx⟩ : name = comp.key ∧ ctx = ctx0 := by
            constructor
            · exact (Event.startCall.injEq _ _ _ _).mp hc |>.1
            · exact (Event.startCall.injEq _ _ _ _).mp hc |>.2
          have hkey : comp.key = name0 := hwk name0 comp hl
          subst hcx
          rw [hn, hkey]
          refine ⟨by rw [hl]; rfl, ?_⟩
          obtain ⟨hb1, hb2⟩ := buildCtx_ok comps name0 comp.dependencies [] ctx hb
          intro d
          have hdeps : depsOf comps name0 = comp.dependencies := by
            unfold depsOf; rw [hl]
          rw [hdeps]
          by_cases hd : d ∈ comp.dependencies
          · obtain ⟨dc, hdc1, _, hdc3⟩ := hb1 d hd
            rw [if_pos hd, hdc3, hdc1, Option.map_some']
          · rw [if_neg hd, hb2 d hd]
            rfl
        -- split on whether the record was already started
        by_cases hstarted : comp.started = true
        · rw [show comp.start B ctx0 = (comp, [], .ok comp.inst) from by
            simp [Component.start, hstarted]] at hev
          dsimp only at hev
          simp only [List.nil_append] at hev
          have hwk' : WellKeyed (updateA comps name0 comp) :=
            wellKeyed_updateA hwk hl rfl
          have hss : SameShape (updateA comps name0 comp) comps :=
            sameShape_updateA hl rfl
          obtain ⟨ha, hb'⟩ := ih (updateA comps name0 comp) (updateA sctx name0 comp.inst)
            hwk' name ctx hev
          refine ⟨by rw [← sameShape_isSome hss name]; exact ha, ?_⟩
          intro d
          rw [← sameShape_depsOf hss name, ← sameShape_instMap hss d]
          exact hb' d
        · have hstarted' : comp.started = false := by
            cases h : comp.started
            · rfl
            · exact absurd h hstarted
          cases hbs : B.start comp.key ctx0 with
          | error e =>
            rw [show comp.start B ctx0 =
                (comp, [.startCall comp.key ctx0],
                  .error ("failed to start component: " ++ e)) from by
              simp [Component.start, hstarted', hbs]] at hev
            dsimp only at hev
            rcases List.mem_singleton.mp hev with hc
            exact hhead hc
          | ok r =>
            rw [show comp.start B ctx0 =
                ({ comp with result := some r, started := true },
                  [.startCall comp.key ctx0], .ok r) from by
              simp [Component.start, hstarted', hbs]] at hev
            dsimp only at hev
            rcases List.mem_cons.mp hev with hc | hrest
            · exact hhead hc
            · have hwk' : WellKeyed
                  (updateA comps name0 { comp with result := some r, started := true }) :=
                wellKeyed_updateA hwk hl rfl
              have hss : SameShape
                  (updateA comps name0 { comp with result := some r, started := true })
                  comps := sameShape_updateA hl rfl
              obtain ⟨ha, hb'⟩ := ih _ (updateA sctx name0 r) hwk' name ctx hrest
              refine ⟨by rw [← sameShape_isSome hss name]; exact ha, ?_⟩
              intro d
              rw [← sameShape_depsOf hss name, ← sameShape_instMap hss d]
              exact hb' d

/-- C1 (amended): for every component started during `System.Start`, the
dependency context passed to its lifecycle start call binds exactly the
component's declared dependency names (and no other names), each to that
dependency record's wrapped lifecycle INSTANCE — not to the value produced
by the dependency's successful start call. -/
theorem c1_start_context (B : Behavior V) (s : System V)
    (hwk : WellKeyed s.components) (name : String) (ctx : Ctx V)
    (hev : Event.startCall name ctx ∈ (s.start B).2.1) :
    (lookupA s.components name).isSome = true ∧
    ∀ d, lookupA ctx d =
      if d ∈ depsOf s.components name then
        (lookupA s.components d).map (fun c => c.inst)
      else none := by
  unfold System.start at hev
  by_cases hs : s.started = true
  · rw [if_pos hs] at hev; simp at hev
  · rw [if_neg hs] at hev
    cases hc : checkCyclicDependencies s.components with
    | some e => rw [hc] at hev; simp at hev
    | none =>
      rw [hc] at hev
      dsimp only at hev
      cases ho : getOrderedComponents s.components with
      | error e => rw [ho] at hev; simp at hev
      | ok order =>
        rw [ho] at hev
        dsimp only at hev
        have hmain := startLoop_trace B order s.components s.context hwk name ctx
        cases hsl : startLoop B order s.components s.context with
        | mk comps' p =>
          obtain ⟨sctx', evs, r⟩ := p
          rw [hsl] at hev hmain
          cases r with
          | some e =>
            dsimp only at hev
            exact hmain hev
          | none =>
            dsimp only at hev
            exact hmain hev

/-- Components for the C1 counterexample: `a` has instance 0 but its
start call produces 2; `b` depends on `a`. -/
def c1Comps : List (String × Component Nat) :=
  [("a", define "a" 0 []), ("b", define "b" 1 ["a"])]

/-- Behaviour for the C1 counterexample. -/
def c1B : Behavior Nat :=
  ⟨fun n _ => if n = "a" then .ok 2 else .ok 3, fun _ _ => none⟩

/-- C1 counterexample: `b`'s start call received the context binding `a`
to 0 — `a`'s wrapped instance — although the value produced by `a`'s
successful start (its current stored result, recorded in the system
context) is 2.  This refutes the claim that the context maps each
dependency to the value produced by its successful start call. -/
theorem c1_counterexample :
    Event.startCall "b" [("a", (0 : Nat))] ∈ ((createSystem c1Comps).start c1B).2.1 ∧
    lookupA ((createSystem c1Comps).start c1B).1.context "a" = some 2 ∧
    lookupA [("a", (0 : Nat))] "a" = some 0 ∧ (0 : Nat) ≠ 2 := by
  refine ⟨?_, rfl, rfl, by decide⟩
  decide

/-- C1 witness: the amended claim applied to the concrete two-component
system, discharging its hypotheses there. -/
theorem c1_start_context_witness :
    (lookupA c1Comps "b").isSome = true ∧
    ∀ d, lookupA [("a", (0 : Nat))] d =
      if d ∈ depsOf c1Comps "b" then (lookupA c1Comps d).map (fun c => c.inst)
      else none :=
  c1_start_context c1B (createSystem c1Comps)
    (wellKeyed_of_forall _ (by decide)) "b" [("a", 0)] (by decide)

/-! ### Claims C4 and C5: cycle detection -/

/-- Number of registered names not yet visited (the DFS measure). -/
def unvis (comps : List (String × Component V)) (v : List String) : Nat :=
  ((keysOf comps).filter (fun k => decide (k ∉ v))).length

/-- A name the DFS has finished: visited and off the recursion stack. -/
def black (v rs : List String) (x : String) : Prop := x ∈ v ∧ x ∉ rs

/-- The invariant `isCyclic` maintains between calls (on the `false`
path): the recursion stack is visited, the finished region is closed
under registered dependency edges, and no finished name lies on a
cycle. -/
structure DfsInv (comps : List (String × Component V)) (v rs : List String) : Prop where
  rsSub : ∀ x ∈ rs, x ∈ v
  closed : ∀ x, black v rs x → ∀ d, DepEdge comps x d → black v rs d
  acyc : ∀ x, black v rs x → ¬ Relation.TransGen (DepEdge comps) x x

/-- The recursion stack (newest first) is a chain of registered
dependency edges. -/
def RsChain (comps : List (String × Component V)) : List String → Prop
  | [] => True
  | [a] => (lookupA comps a).isSome = true
  | a :: b :: t => DepEdge comps b a ∧ RsChain comps (b :: t)

theorem black_mono {v v' rs : List String} (h : ∀ x ∈ v, x ∈ v') {x : String}
    (hb : black v rs x) : black v' rs x := ⟨h x hb.1, hb.2⟩

theorem black_cons_eq {v rs : List String} {name x : String} (hnv : name ∉ v) :
    black (name :: v) (name :: rs) x ↔ black v rs x := by
  unfold black
  constructor
  · rintro ⟨h1, h2⟩
    rcases List.mem_cons.mp h1 with h | h
    · subst h
      exact absurd (List.mem_cons_self x rs) h2
    · exact ⟨h, fun hx => h2 (List.mem_cons_of_mem _ hx)⟩
  · rintro ⟨h1, h2⟩
    refine ⟨List.mem_cons_of_mem _ h1, ?_⟩
    intro hx
    rcases List.mem_cons.mp hx with h | h
    · subst h; exact hnv h1
    · exact h2 h

/-- Everything reachable from a finished name is finished. -/
theorem black_reach {comps : List (String × Component V)} {v rs : List String}
    (hc : ∀ x, black v rs x → ∀ d, DepEdge comps x d → black v rs d)
    {x y : String} (hb : black v rs x)
    (hr : Relation.ReflTransGen (DepEdge comps) x y) : black v rs y := by
  induction hr with
  | refl => exact hb
  | tail _ hstep ih => exact hc _ ih _ hstep

/-- From any stack entry there is an edge path to the stack top. -/
theorem rsChain_reach {comps : List (String × Component V)} :
    ∀ {t : List String} {a x : String},
      RsChain comps (a :: t) → x ∈ a :: t →
      Relation.ReflTransGen (DepEdge comps) x a := by
  intro t
  induction t with
  | nil =>
    intro a x _ hx
    rcases List.mem_singleton.mp hx with rfl
    exact Relation.ReflTransGen.refl
  | cons b t' ih =>
    intro a x h hx
    obtain ⟨hedge, hrest⟩ := h
    rcases List.mem_cons.mp hx with rfl | hx'
    · exact Relation.ReflTransGen.refl
    · exact (ih hrest hx').tail hedge

theorem unvis_le (comps : List (String × Component V)) (v : List String) :
    unvis comps v ≤ comps.length := by
  unfold unvis
  calc ((keysOf comps).filter (fun k => decide (k ∉ v))).length
      ≤ (keysOf comps).length := List.length_filter_le _ _
    _ = comps.length := by unfold keysOf; rw [List.length_map]

theorem filter_unvis_lt {name : String} {v : List String} :
    ∀ (l : List String), name ∈ l → name ∉ v →
      (l.filter (fun k => decide (k ∉ name :: v))).length <
        (l.filter (fun k => decide (k ∉ v))).length := by
  intro l
  induction l with
  | nil => intro h; simp at h
  | cons a rest ih =>
    intro hmem hnv
    have hsub : (rest.filter (fun k => decide (k ∉ name :: v))).length ≤
        (rest.filter (fun k => decide (k ∉ v))).length := by
      apply List.Sublist.length_le
      apply List.monotone_filter_right
      intro x hx
      have : x ∉ name :: v := of_decide_eq_true hx
      exact decide_eq_true (fun hv => this (List.mem_cons_of_mem _ hv))
    by_cases ha : a = name
    · subst ha
      rw [List.filter_cons, List.filter_cons]
      have h1 : (decide (a ∉ a :: v)) = false := by
        simp
      have h2 : (decide (a ∉ v)) = true := decide_eq_true hnv
      rw [h1, h2]
      simp only [List.length_cons]
      exact Nat.lt_succ_of_le hsub
    · have hmem' : name ∈ rest := by
        rcases List.mem_cons.mp hmem with h | h
        · exact absurd h.symm ha
        · exact h
      rw [List.filter_cons, List.filter_cons]
      have hiff : (decide (a ∉ name :: v)) = (decide (a ∉ v)) := by
        by_cases hav : a ∈ v
        · rw [decide_eq_false (by simp [hav]), decide_eq_false (by simp [hav])]
        · rw [decide_eq_true (by
            intro hc
            rcases List.mem_cons.mp hc with h | h
            · exact ha h
            · exact hav h), decide_eq_true hav]
      rw [hiff]
      cases hdec : decide (a ∉ v) with
      | true =>
        simp only [List.length_cons]
        exact Nat.succ_lt_succ (ih hmem' hnv)
      | false =>
        exact ih hmem' hnv

theorem unvis_cons_lt {comps : List (String × Component V)} {v : List String}
    {name : String} (hk : name ∈ keysOf comps) (hv : name ∉ v) :
    unvis comps (name :: v) < unvis comps v :=
  filter_unvis_lt (keysOf comps) hk hv

/-- The dependency loop of the DFS, assuming the property of the
one-level-deeper recursive call: a `true` answer exhibits a cycle, and a
`false` answer grows the visited set, preserves the invariant, and leaves
every registered dependency in the list finished. -/
theorem isCyclicDeps_main (comps : List (String × Component V)) (fuel : Nat)
    (recCall : String → List String → List String → Bool × List String)
    (hrec : ∀ name v rs, name ∈ keysOf comps → name ∉ v → DfsInv comps v rs →
      unvis comps v < fuel → RsChain comps (name :: rs) →
      (∀ v', recCall name v rs = (true, v') → HasCycle comps) ∧
      (∀ v', recCall name v rs = (false, v') →
        (∀ x ∈ v, x ∈ v') ∧ name ∈ v' ∧ unvis comps v' < unvis comps v ∧
        DfsInv comps v' rs ∧ black v' rs name)) :
    ∀ (l : List String) (name : String) (rs₀ v : List String),
      (∀ d ∈ l, d ∈ depsOf comps name) →
      name ∈ keysOf comps → name ∈ v →
      DfsInv comps v (name :: rs₀) →
      unvis comps v < fuel →
      RsChain comps (name :: rs₀) →
      (∀ v', isCyclicDeps comps recCall l v (name :: rs₀) = (true, v') →
        HasCycle comps) ∧
      (∀ v', isCyclicDeps comps recCall l v (name :: rs₀) = (false, v') →
        (∀ x ∈ v, x ∈ v') ∧ unvis comps v' ≤ unvis comps v ∧
        DfsInv comps v' (name :: rs₀) ∧
        ∀ d ∈ l, (lookupA comps d).isSome = true →
          black v' (name :: rs₀) d) := by
  intro l
  induction l with
  | nil =>
    intro name rs₀ v _ _ _ hinv _ _
    constructor
    · intro v' h
      simp [isCyclicDeps] at h
    · intro v' h
      simp only [isCyclicDeps, Prod.mk.injEq, true_and] at h
      subst h
      exact ⟨fun x hx => hx, le_refl _, hinv,
        fun d hd => absurd hd (List.not_mem_nil d)⟩
  | cons dep rest ih =>
    intro name rs₀ v hdeps hkey hnv hinv hfuel hchain
    have hdeprest : ∀ d ∈ rest, d ∈ depsOf comps name :=
      fun d hd => hdeps d (List.mem_cons_of_mem _ hd)
    cases hld : lookupA comps dep with
    | none =>
      have hrest := ih name rs₀ v hdeprest hkey hnv hinv hfuel hchain
      constructor
      · intro v' h
        simp only [isCyclicDeps, hld] at h
        exact hrest.1 v' h
      · intro v' h
        simp only [isCyclicDeps, hld] at h
        obtain ⟨h1, h2, h3, h4⟩ := hrest.2 v' h
        refine ⟨h1, h2, h3, ?_⟩
        intro d hd hsome
        rcases List.mem_cons.mp hd with rfl | hd'
        · rw [hld] at hsome; simp at hsome
        · exact h4 d hd' hsome
    | some c =>
      have hdsome : (lookupA comps dep).isSome = true := by rw [hld]; rfl
      have hnamesome : (lookupA comps name).isSome = true :=
        (lookupA_isSome_iff_mem_keysOf comps name).mpr hkey
      have hedge : DepEdge comps name dep :=
        ⟨hnamesome, hdsome, hdeps dep (List.mem_cons_self _ _)⟩
      by_cases hdv : dep ∈ v
      · by_cases hdrs : dep ∈ name :: rs₀
        · -- back edge: a real cycle through dep
          have hcyc : HasCycle comps :=
            ⟨dep, Relation.TransGen.tail' (rsChain_reach hchain hdrs) hedge⟩
          constructor
          · intro v' _; exact hcyc
          · intro v' h
            simp only [isCyclicDeps, hld, if_pos hdv, if_pos hdrs] at h
            exact absurd h (by simp)
        · -- dep already finished: skip
          have hrest := ih name rs₀ v hdeprest hkey hnv hinv hfuel hchain
          constructor
          · intro v' h
            simp only [isCyclicDeps, hld, if_pos hdv, if_neg hdrs] at h
            exact hrest.1 v' h
          · intro v' h
            simp only [isCyclicDeps, hld, if_pos hdv, if_neg hdrs] at h
            obtain ⟨h1, h2, h3, h4⟩ := hrest.2 v' h
            refine ⟨h1, h2, h3, ?_⟩
            intro d hd hsome
            rcases List.mem_cons.mp hd with rfl | hd'
            · exact black_mono h1 ⟨hdv, hdrs⟩
            · exact h4 d hd' hsome
      · -- recurse into the unvisited dep
        have hdkey : dep ∈ keysOf comps :=
          (lookupA_isSome_iff_mem_keysOf comps dep).mp hdsome
        have hchain' : RsChain comps (dep :: name :: rs₀) := ⟨hedge, hchain⟩
        have hr := hrec dep v (name :: rs₀) hdkey hdv hinv hfuel hchain'
        cases hcall : recCall dep v (name :: rs₀) with
        | mk b v'' =>
          cases b with
          | true =>
            have hcyc := hr.1 v'' hcall
            constructor
            · intro v' _; exact hcyc
            · intro v' h
              simp only [isCyclicDeps, hld, if_neg hdv, hcall] at h
              exact absurd h (by simp)
          | false =>
            obtain ⟨hsub, hdin, hlt, hinv'', hblack⟩ := hr.2 v'' hcall
            have hfuel'' : unvis comps v'' < fuel := lt_trans hlt hfuel
            have hnv'' : name ∈ v'' := hsub name hnv
            have hrest := ih name rs₀ v'' hdeprest hkey hnv'' hinv'' hfuel'' hchain
            constructor
            · intro v' h
              simp only [isCyclicDeps, hld, if_neg hdv, hcall] at h
              exact hrest.1 v' h
            · intro v' h
              simp only [isCyclicDeps, hld, if_neg hdv, hcall] at h
              obtain ⟨h1, h2, h3, h4⟩ := hrest.2 v' h
              refine ⟨fun x hx => h1 x (hsub x hx),
                le_trans h2 (le_of_lt hlt), h3, ?_⟩
              intro d hd hsome
              rcases List.mem_cons.mp hd with rfl | hd'
              · exact black_mono h1 hblack
              · exact h4 d hd' hsome

/-- The main DFS lemma, by induction on fuel: with enough fuel, starting
from an unvisited registered name under the invariant, a `true` answer
exhibits a real cycle and a `false` answer finishes the name, shrinks the
unvisited measure and preserves the invariant. -/
theorem isCyclic_main (comps : List (String × Component V)) :
    ∀ (fuel : Nat) (name : String) (v rs : List String),
      name ∈ keysOf comps → name ∉ v → DfsInv comps v rs →
      unvis comps v < fuel → RsChain comps (name :: rs) →
      (∀ v', isCyclic comps fuel name v rs = (true, v') → HasCycle comps) ∧
      (∀ v', isCyclic comps fuel name v rs = (false, v') →
        (∀ x ∈ v, x ∈ v') ∧ name ∈ v' ∧ unvis comps v' < unvis comps v ∧
        DfsInv comps v' rs ∧ black v' rs name) := by
  intro fuel
  induction fuel with
  | zero =>
    intro name v rs _ _ _ hfuel _
    exact absurd hfuel (Nat.not_lt_zero _)
  | succ fuel ihf =>
    intro name v rs hkey hnv hinv hfuel hchain
    have hsome : (lookupA comps name).isSome = true :=
      (lookupA_isSome_iff_mem_keysOf comps name).mpr hkey
    cases hln : lookupA comps name with
    | none => rw [hln] at hsome; simp at hsome
    | some c =>
      have hV1inv : DfsInv comps (name :: v) (name :: rs) := by
        constructor
        · intro x hx
          rcases List.mem_cons.mp hx with rfl | hx'
          · exact List.mem_cons_self _ _
          · exact List.mem_cons_of_mem _ (hinv.rsSub x hx')
        · intro x hx d hd
          rw [black_cons_eq hnv] at hx ⊢
          exact hinv.closed x hx d hd
        · intro x hx
          rw [black_cons_eq hnv] at hx
          exact hinv.acyc x hx
      have hU1 : unvis comps (name :: v) < unvis comps v := unvis_cons_lt hkey hnv
      have hfuel1 : unvis comps (name :: v) < fuel := by omega
      have hdeps : ∀ d ∈ c.dependencies, d ∈ depsOf comps name := by
        intro d hd; unfold depsOf; rw [hln]; exact hd
      have hmain := isCyclicDeps_main comps fuel (isCyclic comps fuel) ihf
        c.dependencies name rs (name :: v) hdeps hkey (List.mem_cons_self _ _)
        hV1inv hfuel1 hchain
      constructor
      · intro v' h
        simp only [isCyclic, hln] at h
        exact hmain.1 v' h
      · intro v' h
        simp only [isCyclic, hln] at h
        obtain ⟨hsub, hule, hinv', hblackl⟩ := hmain.2 v' h
        have hsubv : ∀ x ∈ v, x ∈ v' := fun x hx => hsub x (List.mem_cons_of_mem _ hx)
        have hnv' : name ∈ v' := hsub name (List.mem_cons_self _ _)
        have hnameNotRs : name ∉ rs := fun hr => hnv (hinv.rsSub name hr)
        have hdepsOfEq : depsOf comps name = c.dependencies := by
          unfold depsOf; rw [hln]
        refine ⟨hsubv, hnv', lt_of_le_of_lt hule hU1, ?_, hnv', hnameNotRs⟩
        constructor
        · intro x hx
          exact hsub x (List.mem_cons_of_mem _ (hinv.rsSub x hx))
        · intro x hx d hd
          by_cases hxn : x = name
          · subst hxn
            have hdm : d ∈ c.dependencies := hdepsOfEq ▸ hd.2.2
            have hbd := hblackl d hdm hd.2.1
            exact ⟨hbd.1, fun hdr => hbd.2 (List.mem_cons_of_mem _ hdr)⟩
          · have hbx : black v' (name :: rs) x := ⟨hx.1, by
              intro hxr
              rcases List.mem_cons.mp hxr with h' | h'
              · exact hxn h'
              · exact hx.2 h'⟩
            have hbd := hinv'.closed x hbx d hd
            exact ⟨hbd.1, fun hdr => hbd.2 (List.mem_cons_of_mem _ hdr)⟩
        · intro x hx hT
          by_cases hxn : x = name
          · subst hxn
            rcases (Relation.TransGen.head'_iff).mp hT with ⟨d, hd, hrestT⟩
            have hdm : d ∈ c.dependencies := hdepsOfEq ▸ hd.2.2
            have hbd := hblackl d hdm hd.2.1
            have hbfin := black_reach hinv'.closed hbd hrestT
            exact hbfin.2 (List.mem_cons_self _ _)
          · have hbx : black v' (name :: rs) x := ⟨hx.1, by
              intro hxr
              rcases List.mem_cons.mp hxr with h' | h'
              · exact hxn h'
              · exact hx.2 h'⟩
            exact hinv'.acyc x hbx hT

/-- The outer loop of the cycle check: a report exhibits a cycle; silence
means every listed name is finished under the invariant. -/
theorem checkCyclicLoop_main (comps : List (String × Component V)) :
    ∀ (names : List String) (v : List String),
      (∀ n ∈ names, n ∈ keysOf comps) → DfsInv comps v [] →
      (∀ e, checkCyclicLoop comps names v = some e → HasCycle comps) ∧
      (checkCyclicLoop comps names v = none →
        ∃ v', (∀ x ∈ v, x ∈ v') ∧ (∀ n ∈ names, n ∈ v') ∧
          DfsInv comps v' []) := by
  intro names
  induction names with
  | nil =>
    intro v _ hinv
    constructor
    · intro e h; simp [checkCyclicLoop] at h
    · intro _
      exact ⟨v, fun x hx => hx, fun n hn => absurd hn (List.not_mem_nil n), hinv⟩
  | cons name rest ih =>
    intro v hn hinv
    have hkey : name ∈ keysOf comps := hn name (List.mem_cons_self _ _)
    have hnrest : ∀ n ∈ rest, n ∈ keysOf comps :=
      fun n h => hn n (List.mem_cons_of_mem _ h)
    by_cases hv : name ∈ v
    · have hrest := ih v hnrest hinv
      constructor
      · intro e h
        simp only [checkCyclicLoop, if_pos hv] at h
        exact hrest.1 e h
      · intro h
        simp only [checkCyclicLoop, if_pos hv] at h
        obtain ⟨v', h1, h2, h3⟩ := hrest.2 h
        refine ⟨v', h1, ?_, h3⟩
        intro n hn'
        rcases List.mem_cons.mp hn' with rfl | h'
        · exact h1 _ hv
        · exact h2 n h'
    · have hchain : RsChain comps [name] := by
        show (lookupA comps name).isSome = true
        exact (lookupA_isSome_iff_mem_keysOf comps name).mpr hkey
      have hfuel : unvis comps v < comps.length + 1 :=
        Nat.lt_succ_of_le (unvis_le comps v)
      have hmain := isCyclic_main comps (comps.length + 1) name v [] hkey hv hinv
        hfuel hchain
      cases hcall : isCyclic comps (comps.length + 1) name v [] with
      | mk b v'' =>
        cases b with
        | true =>
          have hcyc := hmain.1 v'' hcall
          constructor
          · intro e _; exact hcyc
          · intro h
            simp only [checkCyclicLoop, if_neg hv, hcall] at h
            exact absurd h (by simp)
        | false =>
          obtain ⟨hsub, hnv'', _, hinv'', _⟩ := hmain.2 v'' hcall
          have hrest := ih v'' hnrest hinv''
          constructor
          · intro e h
            simp only [checkCyclicLoop, if_neg hv, hcall] at h
            exact hrest.1 e h
          · intro h
            simp only [checkCyclicLoop, if_neg hv, hcall] at h
            obtain ⟨v', h1, h2, h3⟩ := hrest.2 h
            refine ⟨v', fun x hx => h1 x (hsub x hx), ?_, h3⟩
            intro n hn'
            rcases List.mem_cons.mp hn' with rfl | h'
            · exact h1 _ hnv''
            · exact h2 n h'

/-- The empty DFS state satisfies the invariant. -/
theorem dfsInv_nil (comps : List (String × Component V)) : DfsInv comps [] [] :=
  ⟨fun x hx => absurd hx (List.not_mem_nil x),
   fun x hx => absurd hx.1 (List.not_mem_nil x),
   fun x hx => absurd hx.1 (List.not_mem_nil x)⟩

/-- Soundness of the cycle checker: a report means a real cycle among
registered edges (edges to unregistered names never cause a report). -/
theorem checkCyclic_sound {comps : List (String × Component V)} {e : String}
    (h : checkCyclicDependencies comps = some e) : HasCycle comps :=
  (checkCyclicLoop_main comps (keysOf comps) [] (fun _ h' => h')
    (dfsInv_nil comps)).1 e h

/-- Completeness of the cycle checker: every cycle among registered
edges is reported. -/
theorem checkCyclic_complete {comps : List (String × Component V)}
    (h : HasCycle comps) : ∃ e, checkCyclicDependencies comps = some e := by
  cases hc : checkCyclicDependencies comps with
  | some e => exact ⟨e, rfl⟩
  | none =>
    exfalso
    obtain ⟨v', _, hall, hinv⟩ :=
      (checkCyclicLoop_main comps (keysOf comps) [] (fun _ h' => h')
        (dfsInv_nil comps)).2 hc
    obtain ⟨z, hz⟩ := h
    have hzkey : z ∈ keysOf comps := by
      rcases (Relation.TransGen.head'_iff).mp hz with ⟨d, hd, -⟩
      exact (lookupA_isSome_iff_mem_keysOf comps z).mp hd.1
    exact hinv.acyc z ⟨hall z hzkey, List.not_mem_nil z⟩ hz

theorem checkCyclic_none_of_acyclic {comps : List (String × Component V)}
    (h : ¬ HasCycle comps) : checkCyclicDependencies comps = none := by
  cases hc : checkCyclicDependencies comps with
  | none => rfl
  | some e => exact absurd (checkCyclic_sound hc) h

theorem acyclic_of_checkCyclic_none {comps : List (String × Component V)}
    (h : checkCyclicDependencies comps = none) : ¬ HasCycle comps := by
  intro hcyc
  obtain ⟨e, he⟩ := checkCyclic_complete hcyc
  rw [h] at he
  exact absurd he (by simp)

/-- Any cycle report carries the fixed message naming a registered
component. -/
theorem checkCyclicLoop_some_form (comps : List (String × Component V)) :
    ∀ (names v : List String) (e : String),
      checkCyclicLoop comps names v = some e →
      ∃ name ∈ names,
        e = "cyclic dependency detected involving component " ++ name := by
  intro names
  induction names with
  | nil => intro v e h; simp [checkCyclicLoop] at h
  | cons name rest ih =>
    intro v e h
    by_cases hv : name ∈ v
    · simp only [checkCyclicLoop, if_pos hv] at h
      obtain ⟨n, hn, he⟩ := ih v e h
      exact ⟨n, List.mem_cons_of_mem _ hn, he⟩
    · simp only [checkCyclicLoop, if_neg hv] at h
      cases hcall : isCyclic comps (comps.length + 1) name v [] with
      | mk b v'' =>
        rw [hcall] at h
        cases b with
        | true =>
          simp only [Option.some.injEq] at h
          exact ⟨name, List.mem_cons_self _ _, h.symm⟩
        | false =>
          obtain ⟨n, hn, he⟩ := ih v'' e h
          exact ⟨n, List.mem_cons_of_mem _ hn, he⟩

/-- C4: for every component set whose registered dependency edges contain
a cycle, `System.Start` on a not-started system returns the
cyclic-dependency error naming the component whose traversal found the
cycle, no lifecycle start is invoked (empty trace), and the whole state —
context included — is unchanged, so the system stays not started. -/
theorem c4_cyclic_start (B : Behavior V) (s : System V)
    (hns : s.started = false) (hcyc : HasCycle s.components) :
    ∃ name, name ∈ keysOf s.components ∧
      s.start B = (s, [],
        some ("cyclic dependency detected involving component " ++ name)) := by
  obtain ⟨e, he⟩ := checkCyclic_complete hcyc
  obtain ⟨name, hmem, hform⟩ :=
    checkCyclicLoop_some_form s.components (keysOf s.components) [] e he
  subst hform
  refine ⟨name, hmem, ?_⟩
  unfold System.start
  rw [hns, he]
  simp

/-- Components for the C4 witness: a two-cycle `a ↔ b`. -/
def c4Comps : List (String × Component Nat) :=
  [("a", define "a" 0 ["b"]), ("b", define "b" 0 ["a"])]

/-- A trivial behaviour. -/
def c4B : Behavior Nat := ⟨fun _ _ => .ok 0, fun _ _ => none⟩

/-- C4 witness: the theorem applied to the concrete cyclic system. -/
theorem c4_cyclic_start_witness :
    ∃ name, name ∈ keysOf c4Comps ∧
      (createSystem c4Comps).start c4B = (createSystem c4Comps, [],
        some ("cyclic dependency detected involving component " ++ name)) := by
  apply c4_cyclic_start c4B (createSystem c4Comps) rfl
  exact ⟨"a", Relation.TransGen.head
    ((by decide) : DepEdge (createSystem c4Comps).components "a" "b")
    (Relation.TransGen.single
      ((by decide) : DepEdge (createSystem c4Comps).components "b" "a"))⟩

/-- `addEdges` fails with the fixed message when some listed dependency
is unregistered. -/
theorem addEdges_error_of_missing (comps : List (String × Component V))
    (name : String) :
    ∀ (l : List String) (g : String → List String) (d : String → Int),
      (∃ dep ∈ l, (lookupA comps dep).isSome = false) →
      ∃ dep, (lookupA comps dep).isSome = false ∧
        addEdges comps name l g d =
          .error ("dependency " ++ dep ++ " not found for component " ++ name) := by
  intro l
  induction l with
  | nil =>
    intro g d h
    obtain ⟨dep, hd, -⟩ := h
    exact absurd hd (List.not_mem_nil dep)
  | cons dep0 rest ih =>
    intro g d h
    cases hsome : (lookupA comps dep0).isSome with
    | false =>
      refine ⟨dep0, hsome, ?_⟩
      simp [addEdges, hsome]
    | true =>
      have hrest : ∃ dep ∈ rest, (lookupA comps dep).isSome = false := by
        obtain ⟨dep, hd, hf⟩ := h
        rcases List.mem_cons.mp hd with rfl | hd'
        · rw [hsome] at hf; exact absurd hf (by simp)
        · exact ⟨dep, hd', hf⟩
      obtain ⟨dep, h1, h2⟩ := ih _ _ hrest
      refine ⟨dep, h1, ?_⟩
      simp only [addEdges, hsome, if_pos]
      exact h2

/-- `addEdges` succeeds when every listed dependency is registered. -/
theorem addEdges_ok_of_present (comps : List (String × Component V))
    (name : String) :
    ∀ (l : List String) (g : String → List String) (d : String → Int),
      (∀ dep ∈ l, (lookupA comps dep).isSome = true) →
      ∃ g' d', addEdges comps name l g d = .ok (g', d') := by
  intro l
  induction l with
  | nil => intro g d _; exact ⟨g, d, rfl⟩
  | cons dep0 rest ih =>
    intro g d h
    have hsome := h dep0 (List.mem_cons_self _ _)
    obtain ⟨g', d', hok⟩ := ih
      (fun k => if k = dep0 then g dep0 ++ [name] else g k)
      (fun k => if k = name then d name + 1 else d k)
      (fun dep hd => h dep (List.mem_cons_of_mem _ hd))
    refine ⟨g', d', ?_⟩
    simp only [addEdges, hsome, if_pos]
    exact hok

/-- `buildGraph` fails with the missing-dependency message when some
entry declares an unregistered dependency. -/
theorem buildGraph_error_of_missing (comps : List (String × Component V)) :
    ∀ (entries : List (String × Component V)) (g : String → List String)
      (d : String → Int),
      (∃ p ∈ entries, ∃ dep ∈ p.2.dependencies,
        (lookupA comps dep).isSome = false) →
      ∃ dep name, (lookupA comps dep).isSome = false ∧
        buildGraph comps entries g d =
          .error ("dependency " ++ dep ++ " not found for component " ++ name) := by
  intro entries
  induction entries with
  | nil =>
    intro g d h
    obtain ⟨p, hp, -⟩ := h
    exact absurd hp (List.not_mem_nil p)
  | cons p rest ih =>
    intro g d h
    obtain ⟨name0, c0⟩ := p
    by_cases hc : ∃ dep ∈ c0.dependencies, (lookupA comps dep).isSome = false
    · obtain ⟨dep, h1, h2⟩ := addEdges_error_of_missing comps name0 c0.dependencies g d hc
      refine ⟨dep, name0, h1, ?_⟩
      simp only [buildGraph, h2]
    · have hall : ∀ dep ∈ c0.dependencies, (lookupA comps dep).isSome = true := by
        intro dep hd
        cases hs : (lookupA comps dep).isSome with
        | true => rfl
        | false => exact absurd ⟨dep, hd, hs⟩ hc
      obtain ⟨g', d', hok⟩ := addEdges_ok_of_present comps name0 c0.dependencies g d hall
      have hrest : ∃ p ∈ rest, ∃ dep ∈ p.2.dependencies,
          (lookupA comps dep).isSome = false := by
        obtain ⟨q, hq, dep, hdep, hfalse⟩ := h
        rcases List.mem_cons.mp hq with rfl | hq'
        · exact absurd ⟨dep, hdep, hfalse⟩ hc
        · exact ⟨q, hq', dep, hdep, hfalse⟩
      obtain ⟨dep, nm, h1, h2⟩ := ih g' d' hrest
      refine ⟨dep, nm, h1, ?_⟩
      simp only [buildGraph, hok]
      exact h2

/-- `getOrderedComponents` fails with the missing-dependency message when
some component declares an unregistered dependency. -/
theorem getOrdered_error_of_missing (comps : List (String × Component V))
    (h : ∃ p ∈ comps, ∃ dep ∈ p.2.dependencies,
      (lookupA comps dep).isSome = false) :
    ∃ dep name, (lookupA comps dep).isSome = false ∧
      getOrderedComponents comps =
        .error ("dependency " ++ dep ++ " not found for component " ++ name) := by
  obtain ⟨dep, nm, h1, h2⟩ :=
    buildGraph_error_of_missing comps comps (fun _ => []) (fun _ => 0) h
  refine ⟨dep, nm, h1, ?_⟩
  unfold getOrderedComponents
  rw [h2]

/-- C5 (amended): for a component set with a missing declared dependency
whose registered edges are acyclic, cycle detection stays silent (the
edge to the unregistered name is skipped), order computation fails with
the missing-dependency error, and `System.Start` on a not-started system
returns that error untouched, before any start is invoked.  (When the
registered edges do contain a cycle, the cyclic-dependency error from
`checkCyclicDependencies` takes precedence — see the counterexample.) -/
theorem c5_missing_dep (B : Behavior V) (s : System V)
    (hns : s.started = false)
    (hmiss : ∃ p ∈ s.components, ∃ dep ∈ p.2.dependencies,
      (lookupA s.components dep).isSome = false)
    (hacyc : ¬ HasCycle s.components) :
    checkCyclicDependencies s.components = none ∧
    ∃ dep name, (lookupA s.components dep).isSome = false ∧
      getOrderedComponents s.components =
        .error ("dependency " ++ dep ++ " not found for component " ++ name) ∧
      s.start B = (s, [],
        some ("dependency " ++ dep ++ " not found for component " ++ name)) := by
  have hnone := checkCyclic_none_of_acyclic hacyc
  obtain ⟨dep, nm, h1, h2⟩ := getOrdered_error_of_missing s.components hmiss
  refine ⟨hnone, dep, nm, h1, h2, ?_⟩
  unfold System.start
  rw [hns, hnone, h2]
  simp

/-- Components for the C5 counterexample: `a` depends on itself (a
registered cycle) and on the unregistered name `z`. -/
def c5CexComps : List (String × Component Nat) :=
  [("a", define "a" 0 ["a", "z"])]

/-- Components for the C5 witness: `a` depends only on the unregistered
name `z`. -/
def c5WComps : List (String × Component Nat) :=
  [("a", define "a" 0 ["z"])]

/-- A trivial behaviour for the C5 theorems. -/
def c5B : Behavior Nat := ⟨fun _ _ => .ok 0, fun _ _ => none⟩

/-- C5 counterexample: with both a missing dependency (`z`) and a
registered cycle (`a → a`), `System.Start` returns the cyclic-dependency
error, not the missing-dependency error the claim promises: cycle
checking runs first and is not skipped here. -/
theorem c5_counterexample :
    getOrderedComponents c5CexComps =
      .error "dependency z not found for component a" ∧
    ((createSystem c5CexComps).start c5B).2.2 =
      some "cyclic dependency detected involving component a" ∧
    "cyclic dependency detected involving component a" ≠
      "dependency z not found for component a" :=
  ⟨rfl, rfl, by decide⟩

/-- C5 witness: the amended claim applied to the concrete system whose
only flaw is the missing dependency. -/
theorem c5_missing_dep_witness :
    checkCyclicDependencies c5WComps = none ∧
    ∃ dep name, (lookupA c5WComps dep).isSome = false ∧
      getOrderedComponents c5WComps =
        .error ("dependency " ++ dep ++ " not found for component " ++ name) ∧
      (createSystem c5WComps).start c5B = (createSystem c5WComps, [],
        some ("dependency " ++ dep ++ " not found for component " ++ name)) :=
  c5_missing_dep c5B (createSystem c5WComps) rfl (by decide)
    (acyclic_of_checkCyclic_none rfl)

/-! ### Claims C6 and C7: topological ordering -/

theorem strLeB_cons_iff {a b : Char} {as bs : List Char} :
    strLeB (a :: as) (b :: bs) = true ↔
      a < b ∨ (a = b ∧ strLeB as bs = true) := by
  by_cases h1 : a < b
  · simp [strLeB, h1]
  · by_cases h2 : a = b
    · subst h2
      simp [strLeB, h1]
    · simp [strLeB, h1, h2]

theorem strLeB_refl : ∀ x : List Char, strLeB x x = true
  | [] => rfl
  | a :: as => by
    rw [strLeB_cons_iff]
    exact Or.inr ⟨rfl, strLeB_refl as⟩

theorem strLeB_total : ∀ x y : List Char, strLeB x y = true ∨ strLeB y x = true
  | [], _ => Or.inl rfl
  | _ :: _, [] => Or.inr rfl
  | a :: as, b :: bs => by
    rcases lt_trichotomy a b with h | h | h
    · left; rw [strLeB_cons_iff]; exact Or.inl h
    · subst h
      rcases strLeB_total as bs with h' | h'
      · left; rw [strLeB_cons_iff]; exact Or.inr ⟨rfl, h'⟩
      · right; rw [strLeB_cons_iff]; exact Or.inr ⟨rfl, h'⟩
    · right; rw [strLeB_cons_iff]; exact Or.inl h

theorem strLeB_trans : ∀ x y z : List Char,
    strLeB x y = true → strLeB y z = true → strLeB x z = true
  | [], _, _ => fun _ _ => rfl
  | _ :: _, [], _ => fun h _ => by simp [strLeB] at h
  | _ :: _, _ :: _, [] => fun _ h => by simp [strLeB] at h
  | a :: as, b :: bs, c :: cs => fun h1 h2 => by
    rw [strLeB_cons_iff] at h1 h2 ⊢
    rcases h1 with h1 | ⟨rfl, h1⟩
    · rcases h2 with h2 | ⟨rfl, h2⟩
      · exact Or.inl (lt_trans h1 h2)
      · exact Or.inl h1
    · rcases h2 with h2 | ⟨rfl, h2⟩
      · exact Or.inl h2
      · exact Or.inr ⟨rfl, strLeB_trans as bs cs h1 h2⟩

theorem strLeB_antisymm : ∀ x y : List Char,
    strLeB x y = true → strLeB y x = true → x = y
  | [], [] => fun _ _ => rfl
  | [], _ :: _ => fun _ h => by simp [strLeB] at h
  | _ :: _, [] => fun h _ => by simp [strLeB] at h
  | a :: as, b :: bs => fun h1 h2 => by
    rw [strLeB_cons_iff] at h1 h2
    rcases h1 with h1 | ⟨rfl, h1⟩
    · rcases h2 with h2 | ⟨rfl, h2⟩
      · exact absurd h2 (lt_asymm h1)
      · exact absurd h1 (lt_irrefl _)
    · rcases h2 with h2 | ⟨-, h2⟩
      · exact absurd h2 (lt_irrefl _)
      · rw [strLeB_antisymm as bs h1 h2]

theorem strRel_refl (a : String) : strRel a a := strLeB_refl a.data

instance : IsRefl String strRel := ⟨strRel_refl⟩

instance : IsTotal String strRel := ⟨fun a b => strLeB_total a.data b.data⟩

instance : IsTrans String strRel := ⟨fun a b c => strLeB_trans a.data b.data c.data⟩

instance : IsAntisymm String strRel := ⟨fun a b h1 h2 => by
  obtain ⟨da⟩ := a
  obtain ⟨db⟩ := b
  rw [strLeB_antisymm da db h1 h2]⟩

/-- The head of the sorted queue is a lexicographic minimum. -/
theorem sorted_head_min {c : String} {rest : List String}
    (h : List.Sorted strRel (c :: rest)) {x : String} (hx : x ∈ c :: rest) :
    strRel c x := by
  rcases List.mem_cons.mp hx with rfl | hx'
  · exact strRel_refl x
  · exact (List.sorted_cons.mp h).1 x hx'

/-- Number of a component's dependencies not yet emitted (with
multiplicity): the quantity `inDegree` tracks during the sort. -/
def remDeg (comps : List (String × Component V)) (res : List String)
    (k : String) : Nat :=
  ((depsOf comps k).filter (fun x => decide (x ∉ res))).length

/-- A component that could be emitted next: registered, not yet emitted,
all dependencies emitted. -/
def Ready (comps : List (String × Component V)) (emitted : List String)
    (k : String) : Prop :=
  k ∈ keysOf comps ∧ k ∉ emitted ∧ ∀ x ∈ depsOf comps k, x ∈ emitted

/-- A valid topological order: every element's dependencies occur
strictly earlier in the list. -/
def TopoOrder (comps : List (String × Component V)) (l : List String) : Prop :=
  ∀ i (hi : i < l.length), ∀ x ∈ depsOf comps (l.get ⟨i, hi⟩), x ∈ l.take i

/-- Every declared dependency of a registered component is registered. -/
def NoMissing (comps : List (String × Component V)) : Prop :=
  ∀ k ∈ keysOf comps, ∀ x ∈ depsOf comps k, x ∈ keysOf comps

/-- The state invariant of the Kahn loop in `getOrderedComponents`. -/
structure KahnInv (comps : List (String × Component V)) (queue : List String)
    (d : String → Int) (res : List String) : Prop where
  resKeys : ∀ x ∈ res, x ∈ keysOf comps
  qKeys : ∀ x ∈ queue, x ∈ keysOf comps
  resNodup : res.Nodup
  qNodup : queue.Nodup
  disj : ∀ x ∈ queue, x ∉ res
  degKeys : ∀ k ∈ keysOf comps, d k = (remDeg comps res k : Int)
  degNon : ∀ k, k ∉ keysOf comps → d k = 0
  ready : ∀ k ∈ keysOf comps, k ∉ res → (k ∈ queue ↔ d k = 0)
  topo : TopoOrder comps res

theorem remDeg_zero_iff {comps : List (String × Component V)}
    {res : List String} {k : String} :
    remDeg comps res k = 0 ↔ ∀ x ∈ depsOf comps k, x ∈ res := by
  unfold remDeg
  rw [List.length_eq_zero, List.filter_eq_nil_iff]
  constructor
  · intro h x hx
    by_contra hc
    exact absurd (decide_eq_true hc) (by simpa using h x hx)
  · intro h x hx
    simp [h x hx]

/-- Splitting the not-yet-emitted dependency count when one more
component is emitted. -/
theorem filter_notin_append_count :
    ∀ (l res : List String) (c : String), c ∉ res →
      (l.filter (fun x => decide (x ∉ res))).length =
        (l.filter (fun x => decide (x ∉ res ++ [c]))).length + l.count c := by
  intro l
  induction l with
  | nil => intro res c _; simp
  | cons a rest ih =>
    intro res c hc
    rw [List.filter_cons, List.filter_cons]
    by_cases hac : a = c
    · subst hac
      rw [decide_eq_true hc, decide_eq_false (by simp), if_pos rfl,
        if_neg (by simp), List.length_cons, List.count_cons_self]
      rw [ih res a hc]
      omega
    · have h1 : (decide (a ∉ res ++ [c])) = (decide (a ∉ res)) := by
        by_cases har : a ∈ res
        · rw [decide_eq_false (by simp [har]), decide_eq_false (by simp [har])]
        · rw [decide_eq_true (by
            intro hm
            rcases List.mem_append.mp hm with h | h
            · exact har h
            · exact hac (List.mem_singleton.mp h)), decide_eq_true har]
      rw [h1, List.count_cons_of_ne (fun h => hac h.symm)]
      cases hdec : decide (a ∉ res) with
      | true =>
        rw [if_pos rfl, if_pos rfl, List.length_cons, List.length_cons, ih res c hc]
        omega
      | false =>
        rw [if_neg (by simp), if_neg (by simp)]
        exact ih res c hc

theorem remDeg_append {comps : List (String × Component V)} {res : List String}
    {c : String} (hc : c ∉ res) (k : String) :
    remDeg comps res k =
      remDeg comps (res ++ [c]) k + List.count c (depsOf comps k) :=
  filter_notin_append_count (depsOf comps k) res c hc

/-- Unfolding one step of `processNeighbors`. -/
theorem processNeighbors_cons (n : String) (rest : List String)
    (d : String → Int) (q : List String) :
    processNeighbors (n :: rest) d q =
      if d n - 1 = 0 then
        processNeighbors rest (fun k => if k = n then d n - 1 else d k) (q ++ [n])
      else
        processNeighbors rest (fun k => if k = n then d n - 1 else d k) q := by
  simp only [processNeighbors]
  rw [if_pos trivial]

/-- What one pass of `processNeighbors` does, provided no in-degree is
smaller than its pending decrements: pointwise subtraction, and a
duplicate-free batch of enqueued names — exactly those whose in-degree
reaches zero. -/
theorem processNeighbors_spec :
    ∀ (nbrs : List String) (d : String → Int) (q : List String),
      (∀ k, (List.count k nbrs : Int) ≤ d k) →
      (∀ k, (processNeighbors nbrs d q).1 k =
        d k - (List.count k nbrs : Int)) ∧
      ∃ pushed, (processNeighbors nbrs d q).2 = q ++ pushed ∧ pushed.Nodup ∧
        ∀ k, (k ∈ pushed ↔ k ∈ nbrs ∧ d k = (List.count k nbrs : Int)) := by
  intro nbrs
  induction nbrs with
  | nil =>
    intro d q _
    refine ⟨fun k => by simp [processNeighbors], [], by simp [processNeighbors],
      List.nodup_nil, ?_⟩
    intro k
    simp
  | cons n rest ih =>
    intro d q hcnt
    have hdn : (List.count n rest : Int) + 1 ≤ d n := by
      have := hcnt n
      rw [List.count_cons_self] at this
      push_cast at this
      omega
    have hcnt' : ∀ k, (List.count k rest : Int) ≤
        (fun k => if k = n then d n - 1 else d k) k := by
      intro k
      by_cases hk : k = n
      · subst hk
        simp only [if_pos rfl]
        omega
      · simp only [if_neg hk]
        have := hcnt k
        rw [List.count_cons_of_ne hk] at this
        exact this
    rw [processNeighbors_cons]
    by_cases hpush : d n - 1 = 0
    · rw [if_pos hpush]
      obtain ⟨h1, pushed, h2, h3, h4⟩ :=
        ih (fun k => if k = n then d n - 1 else d k) (q ++ [n]) hcnt'
      have hdn1 : d n = 1 := by omega
      have hnrest : List.count n rest = 0 := by
        rw [hdn1] at hdn
        omega
      have hnotrest : n ∉ rest := List.count_eq_zero.mp hnrest
      have hnpushed : n ∉ pushed := fun hm => hnotrest ((h4 n).mp hm).1
      constructor
      · intro k
        rw [h1 k]
        by_cases hk : k = n
        · subst hk
          rw [List.count_cons_self, if_pos rfl, hnrest]
          push_cast
          omega
        · rw [List.count_cons_of_ne hk, if_neg hk]
      · refine ⟨n :: pushed, ?_, List.nodup_cons.mpr ⟨hnpushed, h3⟩, ?_⟩
        · rw [h2, List.append_assoc]
          rfl
        · intro k
          by_cases hk : k = n
          · subst hk
            constructor
            · intro _
              refine ⟨List.mem_cons_self _ _, ?_⟩
              rw [List.count_cons_self, hnrest, hdn1]
              simp
            · intro _
              exact List.mem_cons_self _ _
          · constructor
            · intro hm
              rcases List.mem_cons.mp hm with h | h
              · exact absurd h hk
              · obtain ⟨hr, hd⟩ := (h4 k).mp h
                rw [if_neg hk] at hd
                refine ⟨List.mem_cons_of_mem _ hr, ?_⟩
                rw [List.count_cons_of_ne hk]
                exact hd
            · intro hm
              obtain ⟨hr, hd⟩ := hm
              rcases List.mem_cons.mp hr with h | h
              · exact absurd h hk
              · refine List.mem_cons_of_mem _ ((h4 k).mpr ⟨h, ?_⟩)
                rw [if_neg hk]
                rw [List.count_cons_of_ne hk] at hd
                exact hd
    · rw [if_neg hpush]
      obtain ⟨h1, pushed, h2, h3, h4⟩ :=
        ih (fun k => if k = n then d n - 1 else d k) q hcnt'
      constructor
      · intro k
        rw [h1 k]
        by_cases hk : k = n
        · subst hk
          rw [List.count_cons_self, if_pos rfl]
          push_cast
          omega
        · rw [List.count_cons_of_ne hk, if_neg hk]
      · refine ⟨pushed, h2, h3, ?_⟩
        intro k
        rw [h4 k]
        by_cases hk : k = n
        · subst hk
          rw [if_pos rfl]
          constructor
          · intro hm
            obtain ⟨hr, hd⟩ := hm
            refine ⟨List.mem_cons_of_mem _ hr, ?_⟩
            rw [List.count_cons_self]
            push_cast
            omega
          · intro hm
            obtain ⟨hr, hd⟩ := hm
            rw [List.count_cons_self] at hd
            push_cast at hd
            have hcount : 1 ≤ List.count k rest := by
              by_contra hc
              have h0 : List.count k rest = 0 := by omega
              rw [h0] at hd
              push_cast at hd
              exact hpush (by omega)
            refine ⟨List.count_pos_iff.mp (by omega), by omega⟩
        · rw [if_neg hk, List.count_cons_of_ne hk]
          constructor
          · intro hm
            exact ⟨List.mem_cons_of_mem _ hm.1, hm.2⟩
          · intro hm
            obtain ⟨hr, hd⟩ := hm
            rcases List.mem_cons.mp hr with h | h
            · exact absurd h hk
            · exact ⟨h, hd⟩

theorem get_append_length :
    ∀ (l₁ : List String) (a : String) (l₂ : List String)
      (h : l₁.length < (l₁ ++ a :: l₂).length),
      (l₁ ++ a :: l₂).get ⟨l₁.length, h⟩ = a
  | [], _, _, _ => rfl
  | b :: t, a, l₂, h => get_append_length t a l₂ (by simp)

/-- In a topological order, the dependencies of every member are
members. -/
theorem topo_dep_mem {comps : List (String × Component V)} {res : List String}
    (htopo : TopoOrder comps res) {x : String} (hx : x ∈ res) :
    ∀ y ∈ depsOf comps x, y ∈ res := by
  obtain ⟨n, hn⟩ := List.mem_iff_get.mp hx
  intro y hy
  exact List.take_subset _ _ (htopo n.1 n.2 y (by rw [hn]; exact hy))

/-- An emitted component has no pending in-degree. -/
theorem remDeg_zero_of_mem {comps : List (String × Component V)}
    {res : List String} (htopo : TopoOrder comps res) {x : String}
    (hx : x ∈ res) : remDeg comps res x = 0 :=
  remDeg_zero_iff.mpr (topo_dep_mem htopo hx)

theorem count_le_filter_notin :
    ∀ (l res : List String) (c : String), c ∉ res →
      List.count c l ≤ (l.filter (fun x => decide (x ∉ res))).length := by
  intro l
  induction l with
  | nil => intro res c _; simp
  | cons a rest ih =>
    intro res c hc
    rw [List.filter_cons]
    by_cases hac : a = c
    · subst hac
      rw [decide_eq_true hc, if_pos rfl, List.count_cons_self,
        List.length_cons]
      exact Nat.succ_le_succ (ih res a hc)
    · rw [List.count_cons_of_ne (fun h => hac h.symm)]
      cases hdec : decide (a ∉ res) with
      | true =>
        rw [if_pos rfl, List.length_cons]
        exact le_trans (ih res c hc) (Nat.le_succ _)
      | false =>
        rw [if_neg (by simp)]
        exact ih res c hc

theorem count_le_remDeg {comps : List (String × Component V)}
    {res : List String} {c : String} (hc : c ∉ res) (k : String) :
    List.count c (depsOf comps k) ≤ remDeg comps res k :=
  count_le_filter_notin (depsOf comps k) res c hc

theorem unvis_congr {comps : List (String × Component V)}
    {v₁ v₂ : List String} (h : ∀ x, x ∈ v₁ ↔ x ∈ v₂) :
    unvis comps v₁ = unvis comps v₂ := by
  unfold unvis
  rw [List.filter_congr (fun x _ => decide_eq_decide.mpr (not_congr (h x)))]

/-- Appending a fresh key strictly shrinks the unvisited count. -/
theorem unvis_append_lt {comps : List (String × Component V)}
    {res : List String} {c : String} (hk : c ∈ keysOf comps) (hc : c ∉ res) :
    unvis comps (res ++ [c]) < unvis comps res := by
  have he : unvis comps (res ++ [c]) = unvis comps (c :: res) :=
    unvis_congr (fun x => by simp [or_comm])
  rw [he]
  exact unvis_cons_lt hk hc

/-- Everything `kahnLoop` guarantees about its output, relative to the
emitted prefix `res` it started from. -/
structure KahnOut (comps : List (String × Component V)) (res out : List String) :
    Prop where
  ext : ∃ tail, out = res ++ tail
  nodup : out.Nodup
  keys : ∀ x ∈ out, x ∈ keysOf comps
  topo : TopoOrder comps out
  minfirst : ∀ i (hi : i < out.length), res.length ≤ i →
    Ready comps (out.take i) (out.get ⟨i, hi⟩) ∧
    ∀ k, Ready comps (out.take i) k → strRel (out.get ⟨i, hi⟩) k
  complete : ¬ HasCycle comps → NoMissing comps →
    ∀ k ∈ keysOf comps, k ∈ out

/-- The Kahn loop, from any state satisfying the invariant with enough
fuel, emits a duplicate-free topological order extending `res`, picks the
lexicographically smallest ready component at every step, and — when the
registered edges are acyclic and every dependency registered — emits
every registered component. -/
theorem kahnLoop_main (comps : List (String × Component V))
    (g : String → List String)
    (hgsub : ∀ a, ∀ x ∈ g a, x ∈ keysOf comps)
    (hgcount : ∀ a b, List.count b (g a) = List.count a (depsOf comps b)) :
    ∀ (fuel : Nat) (queue : List String) (d : String → Int) (res : List String),
      unvis comps res < fuel → KahnInv comps queue d res →
      KahnOut comps res (kahnLoop g fuel queue d res) := by
  intro fuel
  induction fuel with
  | zero =>
    intro queue d res hfuel _
    exact absurd hfuel (Nat.not_lt_zero _)
  | succ fuel ihf =>
    intro queue d res hfuel hinv
    cases hsort : List.insertionSort strRel queue with
    | nil =>
      have hqe : queue = [] := by
        have hperm := List.perm_insertionSort strRel queue
        rw [hsort] at hperm
        exact (hperm.symm).eq_nil
      have hout : kahnLoop g (fuel + 1) queue d res = res := by
        simp only [kahnLoop, hsort]
      rw [hout]
      refine ⟨⟨[], by simp⟩, hinv.resNodup, hinv.resKeys, hinv.topo, ?_, ?_⟩
      · intro i hi hle
        omega
      · intro hacyc hnm
        by_contra hkres
        push_neg at hkres
        obtain ⟨u₀, hu₀k, hu₀r⟩ := hkres
        have hstep : ∀ u, u ∈ keysOf comps → u ∉ res →
            ∃ x, (x ∈ keysOf comps ∧ x ∉ res) ∧ DepEdge comps u x := by
          intro u huk hur
          have hdq : d u ≠ 0 := by
            intro h0
            have hq := (hinv.ready u huk hur).mpr h0
            rw [hqe] at hq
            exact absurd hq (List.not_mem_nil u)
          have hdeg := hinv.degKeys u huk
          have hrd : remDeg comps res u ≠ 0 := by
            intro h0
            rw [h0] at hdeg
            exact hdq (by rw [hdeg]; simp)
          obtain ⟨x, hxdep, hxres⟩ : ∃ x ∈ depsOf comps u, x ∉ res := by
            by_contra hall
            push_neg at hall
            exact hrd (remDeg_zero_iff.mpr hall)
          have hxk : x ∈ keysOf comps := hnm u huk x hxdep
          exact ⟨x, ⟨hxk, hxres⟩,
            ⟨(lookupA_isSome_iff_mem_keysOf comps u).mpr huk,
             (lookupA_isSome_iff_mem_keysOf comps x).mpr hxk, hxdep⟩⟩
        let f : {u : String // u ∈ keysOf comps ∧ u ∉ res} →
            {u : String // u ∈ keysOf comps ∧ u ∉ res} := fun u =>
          ⟨Classical.choose (hstep u.1 u.2.1 u.2.2),
           (Classical.choose_spec (hstep u.1 u.2.1 u.2.2)).1⟩
        have hedge : ∀ u, DepEdge comps u.1 (f u).1 := fun u =>
          (Classical.choose_spec (hstep u.1 u.2.1 u.2.2)).2
        let seq : Nat → {u : String // u ∈ keysOf comps ∧ u ∉ res} :=
          fun n => f^[n] ⟨u₀, hu₀k, hu₀r⟩
        have hseq_succ : ∀ n, seq (n + 1) = f (seq n) := fun n =>
          Function.iterate_succ_apply' f n _
        have hchain : ∀ m n,
            Relation.TransGen (DepEdge comps) (seq n).1 (seq (n + m + 1)).1 := by
          intro m
          induction m with
          | zero =>
            intro n
            rw [hseq_succ n]
            exact Relation.TransGen.single (hedge _)
          | succ m ihm =>
            intro n
            rw [show n + (m + 1) + 1 = (n + m + 1) + 1 by omega, hseq_succ _]
            exact Relation.TransGen.tail (ihm n) (hedge _)
        have hmaps : ∀ n ∈ Finset.range ((keysOf comps).length + 1),
            (fun m => (seq m).1) n ∈ (keysOf comps).toFinset :=
          fun n _ => List.mem_toFinset.mpr (seq n).2.1
        have hcard : ((keysOf comps).toFinset).card <
            (Finset.range ((keysOf comps).length + 1)).card := by
          rw [Finset.card_range]
          exact Nat.lt_succ_of_le (List.toFinset_card_le _)
        obtain ⟨a, _, b, _, hne, heq⟩ :=
          Finset.exists_ne_map_eq_of_card_lt_of_maps_to hcard hmaps
        rcases Nat.lt_or_ge a b with hab | hab
        · have hT := hchain (b - a - 1) a
          rw [show a + (b - a - 1) + 1 = b by omega] at hT
          rw [← heq] at hT
          exact hacyc ⟨(seq a).1, hT⟩
        · have hba : b < a := by omega
          have hT := hchain (a - b - 1) b
          rw [show b + (a - b - 1) + 1 = a by omega] at hT
          rw [heq] at hT
          exact hacyc ⟨(seq b).1, hT⟩
    | cons current restq =>
      have hperm := List.perm_insertionSort strRel queue
      rw [hsort] at hperm
      have hsorted := List.sorted_insertionSort strRel queue
      rw [hsort] at hsorted
      have hsortnodup : (current :: restq).Nodup := (hperm.nodup_iff).mpr hinv.qNodup
      have hcurq : current ∈ queue := hperm.mem_iff.mp (List.mem_cons_self _ _)
      have hcurk : current ∈ keysOf comps := hinv.qKeys current hcurq
      have hcurres : current ∉ res := hinv.disj current hcurq
      have hcurd : d current = 0 := (hinv.ready current hcurk hcurres).mp hcurq
      have hcurrem : remDeg comps res current = 0 := by
        have h := hinv.degKeys current hcurk
        rw [hcurd] at h
        exact_mod_cast h.symm
      have hcurdeps : ∀ x ∈ depsOf comps current, x ∈ res :=
        remDeg_zero_iff.mp hcurrem
      have hcnt : ∀ k, (List.count k (g current) : Int) ≤ d k := by
        intro k
        by_cases hk : k ∈ keysOf comps
        · rw [hinv.degKeys k hk, hgcount current k]
          exact_mod_cast count_le_remDeg hcurres k
        · have h0 : List.count k (g current) = 0 :=
            List.count_eq_zero.mpr (fun hm => hk (hgsub current k hm))
          rw [h0, hinv.degNon k hk]
          simp
      obtain ⟨hd2, pushed, hq2, hpnodup, hpmem⟩ :=
        processNeighbors_spec (g current) d restq hcnt
      have hpushedKeys : ∀ x ∈ pushed, x ∈ keysOf comps := fun x hx =>
        hgsub current x ((hpmem x).mp hx).1
      have hpushedPos : ∀ x ∈ pushed, 1 ≤ d x := by
        intro x hx
        obtain ⟨hxg, hxd⟩ := (hpmem x).mp hx
        have hpos : 0 < List.count x (g current) := List.count_pos_iff.mpr hxg
        rw [hxd]
        exact_mod_cast hpos
      have hResZero : ∀ x ∈ res, d x = 0 := by
        intro x hx
        rw [hinv.degKeys x (hinv.resKeys x hx), remDeg_zero_of_mem hinv.topo hx]
        simp
      have hpushedNotRes : ∀ x ∈ pushed, x ∉ res := by
        intro x hx hxr
        have h := hpushedPos x hx
        rw [hResZero x hxr] at h
        omega
      have hpushedNotCur : current ∉ pushed := by
        intro hx
        have h := hpushedPos current hx
        rw [hcurd] at h
        omega
      have hrestqQueue : ∀ x ∈ restq, x ∈ queue := fun x hx =>
        hperm.mem_iff.mp (List.mem_cons_of_mem _ hx)
      have hrestqZero : ∀ x ∈ restq, d x = 0 := by
        intro x hx
        have hxq := hrestqQueue x hx
        exact (hinv.ready x (hinv.qKeys x hxq) (hinv.disj x hxq)).mp hxq
      have hpushedNotRestq : ∀ x ∈ pushed, x ∉ restq := by
        intro x hx hxr
        have h1 := hpushedPos x hx
        rw [hrestqZero x hxr] at h1
        omega
      have hcurNotRestq : current ∉ restq := (List.nodup_cons.mp hsortnodup).1
      have hrestqNodup : restq.Nodup := (List.nodup_cons.mp hsortnodup).2
      -- the new invariant after emitting `current`
      have hinv2 : KahnInv comps (processNeighbors (g current) d restq).2
          (processNeighbors (g current) d restq).1 (res ++ [current]) := by
        rw [hq2]
        constructor
        · intro x hx
          rcases List.mem_append.mp hx with h | h
          · exact hinv.resKeys x h
          · rw [List.mem_singleton.mp h]; exact hcurk
        · intro x hx
          rcases List.mem_append.mp hx with h | h
          · exact hinv.qKeys x (hrestqQueue x h)
          · exact hpushedKeys x h
        · refine List.Nodup.append hinv.resNodup (List.nodup_singleton _) ?_
          intro a ha hb
          rw [List.mem_singleton.mp hb] at ha
          exact hcurres ha
        · refine List.Nodup.append hrestqNodup hpnodup ?_
          intro a ha hb
          exact hpushedNotRestq a hb ha
        · intro x hx hxr
          rcases List.mem_append.mp hxr with hr | hr
          · rcases List.mem_append.mp hx with h | h
            · exact hinv.disj x (hrestqQueue x h) hr
            · exact hpushedNotRes x h hr
          · have hxcur := List.mem_singleton.mp hr
            subst hxcur
            rcases List.mem_append.mp hx with h | h
            · exact hcurNotRestq h
            · exact hpushedNotCur h
        · intro k hk
          rw [hd2 k, hinv.degKeys k hk, hgcount current k,
            remDeg_append hcurres k]
          push_cast
          omega
        · intro k hk
          rw [hd2 k, hinv.degNon k hk,
            List.count_eq_zero.mpr (fun hm => hk (hgsub current k hm))]
          simp
        · intro k hk hkres
          have hkr : k ∉ res := fun h => hkres (List.mem_append.mpr (Or.inl h))
          have hkc : k ≠ current := fun h =>
            hkres (List.mem_append.mpr (Or.inr (by rw [h]; exact List.mem_singleton.mpr rfl)))
          constructor
          · intro hkq
            rcases List.mem_append.mp hkq with h | h
            · have h0 := hrestqZero k h
              rw [hd2 k, h0]
              have hdeps0 : ∀ x ∈ depsOf comps k, x ∈ res := by
                have hrem : remDeg comps res k = 0 := by
                  have := hinv.degKeys k hk
                  rw [h0] at this
                  exact_mod_cast this.symm
                exact remDeg_zero_iff.mp hrem
              have hc0 : List.count k (g current) = 0 := by
                rw [hgcount current k]
                exact List.count_eq_zero.mpr (fun hm => hcurres (hdeps0 current hm))
              rw [hc0]
              simp
            · obtain ⟨-, hxd⟩ := (hpmem k).mp h
              rw [hd2 k, hxd]
              omega
          · intro h0
            by_cases hkq : k ∈ queue
            · rcases List.mem_cons.mp (hperm.mem_iff.mpr hkq) with h | h
              · exact absurd h hkc
              · exact List.mem_append.mpr (Or.inl h)
            · have hdk : d k ≠ 0 := fun hh => hkq ((hinv.ready k hk hkr).mpr hh)
              have hdkpos : 1 ≤ d k := by
                have := hinv.degKeys k hk
                rw [this] at hdk ⊢
                have : (0:Int) ≤ (remDeg comps res k : Int) := by positivity
                omega
              rw [hd2 k] at h0
              have hdkc : d k = (List.count k (g current) : Int) := by omega
              have hkg : k ∈ g current := by
                have : 0 < List.count k (g current) := by
                  by_contra hc
                  have hcc : List.count k (g current) = 0 := by omega
                  rw [hcc] at hdkc
                  push_cast at hdkc
                  omega
                exact List.count_pos_iff.mp this
              exact List.mem_append.mpr (Or.inr ((hpmem k).mpr ⟨hkg, hdkc⟩))
        · intro i hi x hx
          rcases Nat.lt_or_ge i res.length with hir | hir
          · have hget : (res ++ [current]).get ⟨i, hi⟩ = res.get ⟨i, hir⟩ :=
              List.get_append i hir
            rw [hget] at hx
            have htk := hinv.topo i hir x hx
            rw [List.take_append_of_le_length (le_of_lt hir)]
            exact htk
          · have hieq : i = res.length := by
              have := hi
              simp only [List.length_append, List.length_singleton] at this
              omega
            subst hieq
            have hget : (res ++ [current]).get ⟨res.length, hi⟩ = current :=
              get_append_length res current [] hi
            rw [hget] at hx
            rw [List.take_left]
            exact hcurdeps x hx
      have hfuel2 : unvis comps (res ++ [current]) < fuel := by
        have h1 := unvis_append_lt hcurk hcurres
        omega
      have hstep : kahnLoop g (fuel + 1) queue d res =
          kahnLoop g fuel (processNeighbors (g current) d restq).2
            (processNeighbors (g current) d restq).1 (res ++ [current]) := by
        simp only [kahnLoop, hsort]
      have hout := ihf (processNeighbors (g current) d restq).2
        (processNeighbors (g current) d restq).1 (res ++ [current]) hfuel2 hinv2
      rw [hstep]
      obtain ⟨tail, htail⟩ := hout.ext
      constructor
      · exact ⟨current :: tail, by rw [htail, List.append_assoc]; rfl⟩
      · exact hout.nodup
      · exact hout.keys
      · exact hout.topo
      · intro i hi hle
        by_cases hieq : i = res.length
        · subst hieq
          have houtform :
              kahnLoop g fuel (processNeighbors (g current) d restq).2
                (processNeighbors (g current) d restq).1 (res ++ [current]) =
              res ++ current :: tail := by
            rw [htail, List.append_assoc]
            rfl
          have htake : (kahnLoop g fuel (processNeighbors (g current) d restq).2
              (processNeighbors (g current) d restq).1 (res ++ [current])).take
                res.length = res := by
            rw [houtform]
            exact List.take_left res (current :: tail)
          have hget : (kahnLoop g fuel (processNeighbors (g current) d restq).2
              (processNeighbors (g current) d restq).1 (res ++ [current])).get
                ⟨res.length, hi⟩ = current := by
            rw [List.get_of_eq houtform]
            exact get_append_length res current tail _
          rw [htake, hget]
          refine ⟨⟨hcurk, hcurres, hcurdeps⟩, ?_⟩
          intro k hk
          obtain ⟨hkk, hkr, hkd⟩ := hk
          have hk0 : d k = 0 := by
            rw [hinv.degKeys k hkk, remDeg_zero_iff.mpr hkd]
            simp
          have hkq : k ∈ queue := (hinv.ready k hkk hkr).mpr hk0
          exact sorted_head_min hsorted (hperm.mem_iff.mpr hkq)
        · have hle2 : (res ++ [current]).length ≤ i := by
            simp only [List.length_append, List.length_singleton]
            omega
          exact hout.minfirst i hi hle2
      · exact hout.complete

/-- In-degree contribution of a sequence of entries. -/
def degAdd (k : String) : List (String × Component V) → Nat
  | [] => 0
  | (n, c) :: rest => (if n = k then c.dependencies.length else 0) + degAdd k rest

/-- Adjacency contribution of a sequence of entries: how many copies of
`b` the slot `a` gains. -/
def adjAdd (a b : String) : List (String × Component V) → Nat
  | [] => 0
  | (n, c) :: rest =>
    (if n = b then List.count a c.dependencies else 0) + adjAdd a b rest

theorem addEdges_ok_char (comps : List (String × Component V)) (name : String) :
    ∀ (l : List String) (g : String → List String) (d : String → Int)
      (g' : String → List String) (d' : String → Int),
      addEdges comps name l g d = .ok (g', d') →
      (∀ k, d' k = d k + if k = name then (l.length : Int) else 0) ∧
      (∀ a b, List.count b (g' a) =
        List.count b (g a) + if b = name then List.count a l else 0) ∧
      (∀ a x, x ∈ g' a → x ∈ g a ∨ x = name) := by
  intro l
  induction l with
  | nil =>
    intro g d g' d' h
    simp only [addEdges, Except.ok.injEq, Prod.mk.injEq] at h
    obtain ⟨hg, hd⟩ := h
    subst hg
    subst hd
    refine ⟨fun k => by by_cases hk : k = name <;> simp [hk], ?_, ?_⟩
    · intro a b
      by_cases hb : b = name <;> simp [hb]
    · intro a x hx
      exact Or.inl hx
  | cons dep rest ih =>
    intro g d g' d' h
    simp only [addEdges] at h
    cases hsome : (lookupA comps dep).isSome with
    | false =>
      rw [hsome] at h
      exact absurd h (by simp)
    | true =>
      rw [hsome] at h
      simp only [if_pos] at h
      obtain ⟨hd, hcnt, hmem⟩ := ih _ _ _ _ h
      refine ⟨?_, ?_, ?_⟩
      · intro k
        rw [hd k]
        by_cases hk : k = name
        · subst hk
          rw [if_pos rfl, if_pos rfl, if_pos rfl, List.length_cons]
          push_cast
          omega
        · rw [if_neg hk, if_neg hk, if_neg hk]
      · intro a b
        rw [hcnt a b]
        by_cases hb : b = name
        · subst hb
          rw [if_pos rfl, if_pos rfl]
          by_cases ha : a = dep
          · subst ha
            rw [if_pos rfl]
            simp only [List.count_append, List.count_cons_self, List.count_nil]
            omega
          · rw [if_neg ha, List.count_cons_of_ne ha]
        · rw [if_neg hb, if_neg hb]
          by_cases ha : a = dep
          · subst ha
            rw [if_pos rfl, List.count_append]
            have h0 : List.count b [name] = 0 :=
              List.count_eq_zero.mpr (fun hm => hb (List.mem_singleton.mp hm))
            rw [h0]
          · rw [if_neg ha]
      · intro a x hx
        rcases hmem a x hx with hm | hm
        · by_cases ha : a = dep
          · subst ha
            rw [if_pos rfl] at hm
            rcases List.mem_append.mp hm with h1 | h1
            · exact Or.inl h1
            · exact Or.inr (List.mem_singleton.mp h1)
          · rw [if_neg ha] at hm
            exact Or.inl hm
        · exact Or.inr hm

theorem buildGraph_ok_char (comps : List (String × Component V)) :
    ∀ (entries : List (String × Component V)) (g : String → List String)
      (d : String → Int) (g' : String → List String) (d' : String → Int),
      buildGraph comps entries g d = .ok (g', d') →
      (∀ k, d' k = d k + (degAdd k entries : Int)) ∧
      (∀ a b, List.count b (g' a) = List.count b (g a) + adjAdd a b entries) ∧
      (∀ a x, x ∈ g' a → x ∈ g a ∨ x ∈ keysOf entries) := by
  intro entries
  induction entries with
  | nil =>
    intro g d g' d' h
    simp only [buildGraph, Except.ok.injEq, Prod.mk.injEq] at h
    obtain ⟨hg, hd⟩ := h
    subst hg
    subst hd
    exact ⟨fun k => by simp [degAdd], fun a b => by simp [adjAdd],
      fun a x hx => Or.inl hx⟩
  | cons p rest ih =>
    intro g d g' d' h
    obtain ⟨name0, c0⟩ := p
    simp only [buildGraph] at h
    cases hadd : addEdges comps name0 c0.dependencies g d with
    | error e => rw [hadd] at h; exact absurd h (by simp)
    | ok gd =>
      obtain ⟨g1, d1⟩ := gd
      rw [hadd] at h
      obtain ⟨ha1, ha2, ha3⟩ := addEdges_ok_char comps name0 c0.dependencies g d g1 d1 hadd
      obtain ⟨hb1, hb2, hb3⟩ := ih g1 d1 g' d' h
      refine ⟨?_, ?_, ?_⟩
      · intro k
        rw [hb1 k, ha1 k]
        simp only [degAdd]
        by_cases hk : name0 = k
        · rw [if_pos hk, if_pos (hk ▸ rfl)]
          push_cast
          omega
        · rw [if_neg hk, if_neg (fun hh => hk hh.symm)]
          push_cast
          omega
      · intro a b
        rw [hb2 a b, ha2 a b]
        simp only [adjAdd]
        by_cases hb : name0 = b
        · rw [if_pos hb, if_pos (hb ▸ rfl)]
          omega
        · rw [if_neg hb, if_neg (fun hh => hb hh.symm)]
          omega
      · intro a x hx
        rcases hb3 a x hx with hm | hm
        · rcases ha3 a x hm with h1 | h1
          · exact Or.inl h1
          · exact Or.inr (by rw [h1]; exact List.mem_cons_self _ _)
        · exact Or.inr (List.mem_cons_of_mem _ hm)

/-- With duplicate-free keys, the in-degree contribution of the whole
entry list is the length of the component's dependency list. -/
theorem degAdd_eq (comps : List (String × Component V))
    (hnd : (keysOf comps).Nodup) (k : String) :
    degAdd k comps = (depsOf comps k).length := by
  induction comps with
  | nil => simp [degAdd, depsOf, lookupA]
  | cons p rest ih =>
    obtain ⟨n, c⟩ := p
    have hnd' : (keysOf rest).Nodup := (List.nodup_cons.mp hnd).2
    have hn : n ∉ keysOf rest := (List.nodup_cons.mp hnd).1
    simp only [degAdd]
    by_cases hk : n = k
    · subst hk
      rw [if_pos rfl]
      have h0 : degAdd n rest = 0 := by
        clear ih hnd
        induction rest with
        | nil => rfl
        | cons q rest' ih' =>
          obtain ⟨m, c'⟩ := q
          simp only [degAdd]
          have hm : ¬ m = n := by
            intro hh
            exact hn (by rw [← hh]; exact List.mem_cons_self _ _)
          rw [if_neg hm, Nat.zero_add]
          exact ih' (List.nodup_cons.mp hnd').2
            (fun hh => hn (List.mem_cons_of_mem _ hh))
      rw [h0]
      unfold depsOf
      simp [lookupA]
    · rw [if_neg hk]
      have hdeps : depsOf ((n, c) :: rest) k = depsOf rest k := by
        unfold depsOf
        simp only [lookupA, if_neg hk]
      rw [hdeps, ih hnd']
      omega

/-- With duplicate-free keys, the adjacency contribution counts the
occurrences of `a` among `b`'s dependencies. -/
theorem adjAdd_eq (comps : List (String × Component V))
    (hnd : (keysOf comps).Nodup) (a b : String) :
    adjAdd a b comps = List.count a (depsOf comps b) := by
  induction comps with
  | nil => simp [adjAdd, depsOf, lookupA]
  | cons p rest ih =>
    obtain ⟨n, c⟩ := p
    have hnd' : (keysOf rest).Nodup := (List.nodup_cons.mp hnd).2
    have hn : n ∉ keysOf rest := (List.nodup_cons.mp hnd).1
    simp only [adjAdd]
    by_cases hk : n = b
    · subst hk
      rw [if_pos rfl]
      have h0 : adjAdd a n rest = 0 := by
        clear ih hnd
        induction rest with
        | nil => rfl
        | cons q rest' ih' =>
          obtain ⟨m, c'⟩ := q
          simp only [adjAdd]
          have hm : ¬ m = n := by
            intro hh
            exact hn (by rw [← hh]; exact List.mem_cons_self _ _)
          rw [if_neg hm, Nat.zero_add]
          exact ih' (List.nodup_cons.mp hnd').2
            (fun hh => hn (List.mem_cons_of_mem _ hh))
      rw [h0]
      unfold depsOf
      simp [lookupA]
    · rw [if_neg hk]
      have hdeps : depsOf ((n, c) :: rest) b = depsOf rest b := by
        unfold depsOf
        simp only [lookupA, if_neg hk]
      rw [hdeps, ih hnd']
      omega

theorem lookupA_of_mem_nodup :
    ∀ {l : List (String × α)} {k : String} {c : α},
      (keysOf l).Nodup → (k, c) ∈ l → lookupA l k = some c := by
  intro l
  induction l with
  | nil => intro k c _ h; exact absurd h (List.not_mem_nil _)
  | cons p rest ih =>
    intro k c hnd hm
    obtain ⟨pk, pv⟩ := p
    have hpk : pk ∉ keysOf rest := (List.nodup_cons.mp hnd).1
    rcases List.mem_cons.mp hm with h | h
    · obtain ⟨h1, h2⟩ := Prod.mk.injEq .. ▸ h
      simp only [lookupA]
      rw [if_pos h1.symm]
      rw [h2]
    · have hk : k ∈ keysOf rest := by
        unfold keysOf
        exact List.mem_map.mpr ⟨(k, c), h, rfl⟩
      have hne : ¬ pk = k := fun hh => hpk (hh ▸ hk)
      simp only [lookupA, if_neg hne]
      exact ih (List.nodup_cons.mp hnd).2 h

/-- A successful graph build means no dependency is missing. -/
theorem noMissing_of_buildGraph_ok {comps : List (String × Component V)}
    {g' : String → List String} {d' : String → Int}
    (h : buildGraph comps comps (fun _ => []) (fun _ => 0) = .ok (g', d')) :
    NoMissing comps := by
  intro k hk x hx
  by_contra hxk
  have hxk' : (lookupA comps x).isSome = false := by
    cases hs : (lookupA comps x).isSome with
    | false => rfl
    | true => exact absurd ((lookupA_isSome_iff_mem_keysOf comps x).mp hs) hxk
  have hmiss : ∃ p ∈ comps, ∃ dep ∈ p.2.dependencies,
      (lookupA comps dep).isSome = false := by
    have hks : (lookupA comps k).isSome = true :=
      (lookupA_isSome_iff_mem_keysOf comps k).mpr hk
    cases hlk : lookupA comps k with
    | none => rw [hlk] at hks; exact absurd hks (by simp)
    | some c =>
      refine ⟨(k, c), lookupA_mem hlk, x, ?_, hxk'⟩
      have : depsOf comps k = c.dependencies := by unfold depsOf; rw [hlk]
      rw [← this]
      exact hx
  obtain ⟨dep, nm, -, h2⟩ :=
    buildGraph_error_of_missing comps comps (fun _ => []) (fun _ => 0) hmiss
  rw [h2] at h
  exact absurd h (by simp)

theorem buildGraph_ok_of_present (comps : List (String × Component V)) :
    ∀ (entries : List (String × Component V)) (g : String → List String)
      (d : String → Int),
      (∀ p ∈ entries, ∀ dep ∈ p.2.dependencies,
        (lookupA comps dep).isSome = true) →
      ∃ g' d', buildGraph comps entries g d = .ok (g', d') := by
  intro entries
  induction entries with
  | nil => intro g d _; exact ⟨g, d, rfl⟩
  | cons p rest ih =>
    intro g d h
    obtain ⟨name0, c0⟩ := p
    obtain ⟨g1, d1, hok⟩ := addEdges_ok_of_present comps name0 c0.dependencies g d
      (h (name0, c0) (List.mem_cons_self _ _))
    obtain ⟨g', d', hok'⟩ := ih g1 d1 (fun q hq => h q (List.mem_cons_of_mem _ hq))
    refine ⟨g', d', ?_⟩
    simp only [buildGraph, hok]
    exact hok'

theorem remDeg_nil (comps : List (String × Component V)) (k : String) :
    remDeg comps [] k = (depsOf comps k).length := by
  unfold remDeg
  rw [List.filter_congr (fun x _ => decide_eq_true (List.not_mem_nil x)),
    List.filter_eq_self.mpr (fun x _ => rfl)]

/-- The lexicographic-minimum-first property of an emission order. -/
def MinFirst (comps : List (String × Component V)) (order : List String) :
    Prop :=
  ∀ i (hi : i < order.length),
    Ready comps (order.take i) (order.get ⟨i, hi⟩) ∧
    ∀ k, Ready comps (order.take i) k → strRel (order.get ⟨i, hi⟩) k

/-- Running the Kahn loop from the state `getOrderedComponents` sets up. -/
theorem getOrdered_run (comps : List (String × Component V))
    (hnd : (keysOf comps).Nodup) {g' : String → List String}
    {d' : String → Int}
    (hbuild : buildGraph comps comps (fun _ => []) (fun _ => 0) = .ok (g', d')) :
    KahnOut comps []
      (kahnLoop g' (comps.length + totalDeps comps + 1)
        ((keysOf comps).filter (fun k => d' k == 0)) d' []) := by
  obtain ⟨hd, hcnt, hmem⟩ := buildGraph_ok_char comps comps _ _ _ _ hbuild
  have hdchar : ∀ k, d' k = ((depsOf comps k).length : Int) := by
    intro k
    rw [hd k, degAdd_eq comps hnd k]
    simp
  have hgcount : ∀ a b, List.count b (g' a) = List.count a (depsOf comps b) := by
    intro a b
    rw [hcnt a b, adjAdd_eq comps hnd a b]
    simp
  have hgsub : ∀ a, ∀ x ∈ g' a, x ∈ keysOf comps := by
    intro a x hx
    rcases hmem a x hx with h | h
    · exact absurd h (List.not_mem_nil x)
    · exact h
  apply kahnLoop_main comps g' hgsub hgcount
  · have := unvis_le comps []
    omega
  · constructor
    · intro x hx
      exact absurd hx (List.not_mem_nil x)
    · intro x hx
      exact (List.mem_filter.mp hx).1
    · exact List.nodup_nil
    · exact List.Nodup.filter _ hnd
    · intro x _
      exact List.not_mem_nil x
    · intro k _
      rw [hdchar k, remDeg_nil]
    · intro k hk
      rw [hdchar k]
      have : depsOf comps k = [] := by
        unfold depsOf
        cases hlk : lookupA comps k with
        | none => rfl
        | some c =>
          exact absurd ((lookupA_isSome_iff_mem_keysOf comps k).mp
            (by rw [hlk]; rfl)) hk
      rw [this]
      rfl
    · intro k hk _
      rw [List.mem_filter]
      constructor
      · intro ⟨_, h⟩
        exact beq_iff_eq.mp h
      · intro h
        exact ⟨hk, beq_iff_eq.mpr h⟩
    · intro i hi
      exact absurd hi (by simp)

/-- Everything a successful `getOrderedComponents` result satisfies. -/
theorem getOrdered_ok_props {comps : List (String × Component V)}
    (hnd : (keysOf comps).Nodup) {order : List String}
    (h : getOrderedComponents comps = .ok order) :
    order.Nodup ∧ (∀ x, x ∈ order ↔ x ∈ keysOf comps) ∧
    TopoOrder comps order ∧ MinFirst comps order ∧ NoMissing comps := by
  unfold getOrderedComponents at h
  cases hbuild : buildGraph comps comps (fun _ => []) (fun _ => 0) with
  | error e => rw [hbuild] at h; exact absurd h (by simp)
  | ok gd =>
    obtain ⟨g', d'⟩ := gd
    rw [hbuild] at h
    simp only at h
    have hout := getOrdered_run comps hnd hbuild
    by_cases hlen : (kahnLoop g' (comps.length + totalDeps comps + 1)
        ((keysOf comps).filter (fun k => d' k == 0)) d' []).length = comps.length
    · rw [if_pos hlen] at h
      have horder : order = kahnLoop g' (comps.length + totalDeps comps + 1)
          ((keysOf comps).filter (fun k => d' k == 0)) d' [] := by
        cases h
        rfl
      subst horder
      have hkeyslen : (keysOf comps).length = comps.length := by
        unfold keysOf
        rw [List.length_map]
      have hperm : (kahnLoop g' (comps.length + totalDeps comps + 1)
          ((keysOf comps).filter (fun k => d' k == 0)) d' []).Perm
            (keysOf comps) :=
        (List.Nodup.subperm hout.nodup (fun x hx => hout.keys x hx)).perm_of_length_le
          (by omega)
      refine ⟨hout.nodup, fun x => ⟨fun hx => hout.keys x hx,
        fun hx => hperm.mem_iff.mpr hx⟩, hout.topo, ?_,
        noMissing_of_buildGraph_ok hbuild⟩
      intro i hi
      exact hout.minfirst i hi (Nat.zero_le i)
    · rw [if_neg hlen] at h
      exact absurd h (by simp)

/-- Acyclic, fully-registered, duplicate-free component sets order
successfully. -/
theorem getOrdered_ok_of_acyclic {comps : List (String × Component V)}
    (hnd : (keysOf comps).Nodup) (hnm : NoMissing comps)
    (hacyc : ¬ HasCycle comps) :
    ∃ order, getOrderedComponents comps = .ok order := by
  have hpres : ∀ p ∈ comps, ∀ dep ∈ p.2.dependencies,
      (lookupA comps dep).isSome = true := by
    intro p hp dep hd
    obtain ⟨pk, pc⟩ := p
    have hlk : lookupA comps pk = some pc := lookupA_of_mem_nodup hnd hp
    have hpkk : pk ∈ keysOf comps :=
      (lookupA_isSome_iff_mem_keysOf comps pk).mp (by rw [hlk]; rfl)
    have hdeps : depsOf comps pk = pc.dependencies := by
      unfold depsOf; rw [hlk]
    have := hnm pk hpkk dep (by rw [hdeps]; exact hd)
    exact (lookupA_isSome_iff_mem_keysOf comps dep).mpr this
  obtain ⟨g', d', hbuild⟩ :=
    buildGraph_ok_of_present comps comps (fun _ => []) (fun _ => 0) hpres
  have hout := getOrdered_run comps hnd hbuild
  have hcov := hout.complete hacyc hnm
  have hperm : (kahnLoop g' (comps.length + totalDeps comps + 1)
      ((keysOf comps).filter (fun k => d' k == 0)) d' []).Perm (keysOf comps) :=
    (List.perm_ext_iff_of_nodup hout.nodup hnd).mpr
      (fun a => ⟨fun hx => hout.keys a hx, fun hx => hcov a hx⟩)
  have hlen : (kahnLoop g' (comps.length + totalDeps comps + 1)
      ((keysOf comps).filter (fun k => d' k == 0)) d' []).length = comps.length := by
    rw [hperm.length_eq]
    unfold keysOf
    rw [List.length_map]
  unfold getOrderedComponents
  rw [hbuild]
  simp only
  rw [if_pos hlen]
  exact ⟨_, rfl⟩

/-- The error-accumulation of `System.Stop`'s loop, written as a fold:
each failing stop replaces the accumulator with its doubly-wrapped
message. -/
def stopFold (B : Behavior V) (sctx : Ctx V) : List String → Option String →
    Option String
  | [], acc => acc
  | n :: rest, acc =>
    stopFold B sctx rest
      (match B.stop n sctx with
       | some e => some ("failed to stop component " ++ n ++ ": " ++
           ("failed to stop component: " ++ e))
       | none => acc)

/-- What the stop loop does when run over distinct, started, well-keyed
components: it invokes every lifecycle stop in list order, accumulates
errors as `stopFold`, clears the started flag exactly of the components
whose stop succeeded, and touches nothing else. -/
theorem stopLoop_spec (B : Behavior V) (sctx : Ctx V) :
    ∀ (l : List String) (comps : List (String × Component V))
      (lastErr : Option String),
      l.Nodup → WellKeyed comps →
      (∀ n ∈ l, ∃ c, lookupA comps n = some c ∧ c.started = true) →
      (stopLoop B sctx l comps lastErr).2.1 = l.map Event.stopCall ∧
      (stopLoop B sctx l comps lastErr).2.2 = stopFold B sctx l lastErr ∧
      (∀ n ∈ l, ∃ c', lookupA (stopLoop B sctx l comps lastErr).1 n = some c' ∧
        (B.stop n sctx = none → c'.started = false) ∧
        (∀ e, B.stop n sctx = some e → c'.started = true)) ∧
      (∀ n, n ∉ l →
        lookupA (stopLoop B sctx l comps lastErr).1 n = lookupA comps n) := by
  intro l
  induction l with
  | nil =>
    intro comps lastErr _ _ _
    exact ⟨rfl, rfl, fun n hn => absurd hn (List.not_mem_nil n),
      fun n _ => rfl⟩
  | cons name rest ih =>
    intro comps lastErr hnd hwk hst
    obtain ⟨c, hlc, hcs⟩ := hst name (List.mem_cons_self _ _)
    have hkey : c.key = name := hwk name c hlc
    have hnr : name ∉ rest := (List.nodup_cons.mp hnd).1
    have hndr : rest.Nodup := (List.nodup_cons.mp hnd).2
    cases hbs : B.stop name sctx with
    | none =>
      have hcomp : Component.stop B c sctx =
          ({ c with started := false }, [.stopCall name], none) := by
        simp [Component.stop, hcs, hkey, hbs]
      have hwk' : WellKeyed (updateA comps name { c with started := false }) :=
        wellKeyed_updateA hwk hlc rfl
      have hst' : ∀ n ∈ rest, ∃ c', lookupA
          (updateA comps name { c with started := false }) n = some c' ∧
          c'.started = true := by
        intro n hn
        obtain ⟨c', hlc', hcs'⟩ := hst n (List.mem_cons_of_mem _ hn)
        refine ⟨c', ?_, hcs'⟩
        rw [lookupA_updateA, if_neg (fun hh => hnr (by rw [hh]; exact hn))]
        exact hlc'
      obtain ⟨ih1, ih2, ih3, ih4⟩ := ih
        (updateA comps name { c with started := false })
        lastErr hndr hwk' hst'
      cases hS : stopLoop B sctx rest
          (updateA comps name { c with started := false }) lastErr with
      | mk comps1 p =>
        obtain ⟨evs1, r1⟩ := p
        rw [hS] at ih1 ih2 ih3 ih4
        have hstep : stopLoop B sctx (name :: rest) comps lastErr =
            (comps1, Event.stopCall name :: evs1, r1) := by
          simp only [stopLoop, hlc, hcomp, hS, List.singleton_append]
        rw [hstep]
        refine ⟨?_, ?_, ?_, ?_⟩
        · rw [List.map_cons]
          simp only at ih1 ⊢
          rw [ih1]
        · simp only at ih2 ⊢
          rw [ih2]
          simp [stopFold, hbs]
        · intro n hn
          rcases List.mem_cons.mp hn with rfl | hn'
          · refine ⟨{ c with started := false }, ?_, fun _ => rfl,
              fun e he => absurd he (by rw [hbs]; simp)⟩
            simp only at ih4 ⊢
            rw [ih4 n hnr, lookupA_updateA, if_pos rfl]
          · exact ih3 n hn'
        · intro n hn
          have hn1 : n ≠ name := fun hh => hn (by rw [hh]; exact List.mem_cons_self _ _)
          have hn2 : n ∉ rest := fun hh => hn (List.mem_cons_of_mem _ hh)
          simp only at ih4 ⊢
          rw [ih4 n hn2, lookupA_updateA, if_neg (fun hh => hn1 hh.symm)]
    | some e =>
      have hcomp : Component.stop B c sctx =
          (c, [.stopCall name], some ("failed to stop component: " ++ e)) := by
        simp [Component.stop, hcs, hkey, hbs]
      have hwk' : WellKeyed (updateA comps name c) := wellKeyed_updateA hwk hlc rfl
      have hst' : ∀ n ∈ rest, ∃ c', lookupA (updateA comps name c) n = some c' ∧
          c'.started = true := by
        intro n hn
        obtain ⟨c', hlc', hcs'⟩ := hst n (List.mem_cons_of_mem _ hn)
        refine ⟨c', ?_, hcs'⟩
        rw [lookupA_updateA, if_neg (fun hh => hnr (by rw [hh]; exact hn))]
        exact hlc'
      obtain ⟨ih1, ih2, ih3, ih4⟩ := ih (updateA comps name c)
        (some ("failed to stop component " ++ name ++ ": " ++
          ("failed to stop component: " ++ e))) hndr hwk' hst'
      cases hS : stopLoop B sctx rest (updateA comps name c)
          (some ("failed to stop component " ++ name ++ ": " ++
            ("failed to stop component: " ++ e))) with
      | mk comps1 p =>
        obtain ⟨evs1, r1⟩ := p
        rw [hS] at ih1 ih2 ih3 ih4
        have hstep : stopLoop B sctx (name :: rest) comps lastErr =
            (comps1, Event.stopCall name :: evs1, r1) := by
          simp only [stopLoop, hlc, hcomp, hS, List.singleton_append]
        rw [hstep]
        refine ⟨?_, ?_, ?_, ?_⟩
        · rw [List.map_cons]
          simp only at ih1 ⊢
          rw [ih1]
        · simp only at ih2 ⊢
          rw [ih2]
          simp [stopFold, hbs]
        · intro n hn
          rcases List.mem_cons.mp hn with rfl | hn'
          · refine ⟨c, ?_, fun he => absurd he (by rw [hbs]; simp),
              fun e' _ => hcs⟩
            simp only at ih4 ⊢
            rw [ih4 n hnr, lookupA_updateA, if_pos rfl]
          · exact ih3 n hn'
        · intro n hn
          have hn1 : n ≠ name := fun hh => hn (by rw [hh]; exact List.mem_cons_self _ _)
          have hn2 : n ∉ rest := fun hh => hn (List.mem_cons_of_mem _ hh)
          simp only at ih4 ⊢
          rw [ih4 n hn2, lookupA_updateA, if_neg (fun hh => hn1 hh.symm)]

/-- C6: for every duplicate-free, well-keyed, acyclic component set with
all dependencies registered, `getOrderedComponents` computes an order in
which every component appears after all its dependencies, and
`System.Stop` on a started system (all records started) invokes the
component stop calls in exactly the reverse of that freshly recomputed
order. -/
theorem c6_topo_and_stop (B : Behavior V) (comps : List (String × Component V))
    (hnd : (keysOf comps).Nodup) (hwk : WellKeyed comps)
    (hnm : NoMissing comps) (hacyc : ¬ HasCycle comps) :
    ∃ order, getOrderedComponents comps = .ok order ∧ TopoOrder comps order ∧
      ∀ s : System V, s.components = comps → s.started = true →
        (∀ p ∈ comps, p.2.started = true) →
        (s.stop B).2.1 = order.reverse.map Event.stopCall := by
  obtain ⟨order, hok⟩ := getOrdered_ok_of_acyclic hnd hnm hacyc
  obtain ⟨hnodup, hmem, htopo, -, -⟩ := getOrdered_ok_props hnd hok
  refine ⟨order, hok, htopo, ?_⟩
  intro s hsc hss hall
  have hs1 : ∀ n ∈ order.reverse, ∃ c,
      lookupA s.components n = some c ∧ c.started = true := by
    intro n hn
    have hnk : n ∈ keysOf comps := (hmem n).mp (List.mem_reverse.mp hn)
    have hsome := (lookupA_isSome_iff_mem_keysOf comps n).mpr hnk
    cases hlk : lookupA comps n with
    | none => rw [hlk] at hsome; exact absurd hsome (by simp)
    | some c =>
      exact ⟨c, by rw [hsc]; exact hlk, hall (n, c) (lookupA_mem hlk)⟩
  have hspec := stopLoop_spec B s.context order.reverse s.components none
    (List.nodup_reverse.mpr hnodup) (by rw [hsc]; exact hwk) hs1
  cases hSL : stopLoop B s.context order.reverse s.components none with
  | mk comps' p =>
    obtain ⟨evs, r⟩ := p
    rw [hSL] at hspec
    rw [hsc] at hSL
    have hrun : s.stop B = ({ s with components := comps', started := false },
        evs, r) := by
      unfold System.stop
      rw [hss, hsc, hok]
      rw [if_neg (by simp)]
      dsimp only
      rw [hSL]
    rw [hrun]
    exact hspec.1

/-- Started records for the C6 witness, mirroring the test scenario
`compA ← compB ← compC`. -/
def c6Comps : List (String × Component Nat) :=
  [("compA", ⟨"compA", 0, [], some 0, true⟩),
   ("compB", ⟨"compB", 1, ["compA"], some 1, true⟩),
   ("compC", ⟨"compC", 2, ["compA", "compB"], some 2, true⟩)]

/-- A trivial behaviour for the C6 witness. -/
def c6B : Behavior Nat := ⟨fun _ _ => .ok 0, fun _ _ => none⟩

/-- C6 witness: the theorem applied to the concrete three-component
system. -/
theorem c6_topo_and_stop_witness :
    ∃ order, getOrderedComponents c6Comps = .ok order ∧
      TopoOrder c6Comps order ∧
      ∀ s : System Nat, s.components = c6Comps → s.started = true →
        (∀ p ∈ c6Comps, p.2.started = true) →
        (s.stop c6B).2.1 = order.reverse.map Event.stopCall :=
  c6_topo_and_stop c6B c6Comps (by decide)
    (wellKeyed_of_forall _ (by decide)) (by unfold NoMissing; decide)
    (acyclic_of_checkCyclic_none rfl)

/-! ### Claim C7: determinism of the computed order -/

theorem lookupA_perm {l₁ l₂ : List (String × α)} (hperm : l₁.Perm l₂)
    (hnd : (keysOf l₁).Nodup) (k : String) : lookupA l₁ k = lookupA l₂ k := by
  have hnd₂ : (keysOf l₂).Nodup := ((hperm.map Prod.fst).nodup_iff).mp hnd
  cases h₁ : lookupA l₁ k with
  | some c =>
    exact (lookupA_of_mem_nodup hnd₂ (hperm.mem_iff.mp (lookupA_mem h₁))).symm
  | none =>
    cases h₂ : lookupA l₂ k with
    | none => rfl
    | some c =>
      have := hperm.mem_iff.mpr (lookupA_mem h₂)
      rw [lookupA_of_mem_nodup hnd this] at h₁
      exact absurd h₁ (by simp)

theorem indexOf_lt_of_mem_take {b : String} :
    ∀ (l : List String) (n : Nat), b ∈ l.take n → l.indexOf b < n := by
  intro l
  induction l with
  | nil => intro n h; simp at h
  | cons x xs ih =>
    intro n h
    cases n with
    | zero => simp at h
    | succ m =>
      rw [List.take_succ_cons] at h
      by_cases hbx : b = x
      · subst hbx
        rw [List.indexOf_cons_self]
        exact Nat.succ_pos m
      · rcases List.mem_cons.mp h with h1 | h1
        · exact absurd h1 hbx
        · rw [List.indexOf_cons_ne _ (fun hh => hbx hh.symm)]
          exact Nat.succ_lt_succ (ih m h1)

/-- A covering topological order certifies acyclicity. -/
theorem acyclic_of_topoOrder {comps : List (String × Component V)}
    {order : List String} (hnd : order.Nodup)
    (hcov : ∀ x, x ∈ order ↔ x ∈ keysOf comps)
    (htopo : TopoOrder comps order) : ¬ HasCycle comps := by
  rintro ⟨z, hz⟩
  have hedge : ∀ a b, DepEdge comps a b →
      order.indexOf b < order.indexOf a := by
    intro a b hab
    have hak : a ∈ keysOf comps :=
      (lookupA_isSome_iff_mem_keysOf comps a).mp hab.1
    have hao : a ∈ order := (hcov a).mpr hak
    have hi : order.indexOf a < order.length := List.indexOf_lt_length.mpr hao
    have hget : order.get ⟨order.indexOf a, hi⟩ = a := List.indexOf_get hi
    have hbt : b ∈ order.take (order.indexOf a) :=
      htopo (order.indexOf a) hi b (by rw [hget]; exact hab.2.2)
    exact indexOf_lt_of_mem_take order (order.indexOf a) hbt
  have hdesc : ∀ a b, Relation.TransGen (DepEdge comps) a b →
      order.indexOf b < order.indexOf a := by
    intro a b hT
    induction hT with
    | single h => exact hedge _ _ h
    | tail _ h ih => exact lt_trans (hedge _ _ h) ih
  exact absurd (hdesc z z hz) (lt_irrefl _)

/-- Two orders of equal length that both take the lexicographically
smallest ready component at every position coincide. -/
theorem minFirst_unique {comps₁ comps₂ : List (String × Component V)}
    (hready : ∀ em k, Ready comps₁ em k ↔ Ready comps₂ em k)
    {o₁ o₂ : List String} (hlen : o₁.length = o₂.length)
    (h₁ : MinFirst comps₁ o₁) (h₂ : MinFirst comps₂ o₂) : o₁ = o₂ := by
  have htake : ∀ i, o₁.take i = o₂.take i := by
    intro i
    induction i with
    | zero => rfl
    | succ i ih =>
      by_cases hi : i < o₁.length
      · have hi₂ : i < o₂.length := by omega
        have hg₁ := h₁ i hi
        have hg₂ := h₂ i hi₂
        have hR₂ : Ready comps₁ (o₁.take i) (o₂.get ⟨i, hi₂⟩) := by
          rw [hready]
          rw [ih]
          exact hg₂.1
        have hR₁ : Ready comps₂ (o₂.take i) (o₁.get ⟨i, hi⟩) := by
          rw [← hready]
          rw [← ih]
          exact hg₁.1
        have hle₁ : strRel (o₁.get ⟨i, hi⟩) (o₂.get ⟨i, hi₂⟩) :=
          hg₁.2 _ hR₂
        have hle₂ : strRel (o₂.get ⟨i, hi₂⟩) (o₁.get ⟨i, hi⟩) :=
          hg₂.2 _ (by rw [← ih]; rw [← hready] at hR₁ ⊢; rw [ih]; exact hR₁)
        have hgeq : o₁.get ⟨i, hi⟩ = o₂.get ⟨i, hi₂⟩ :=
          antisymm hle₁ hle₂
        rw [List.take_succ, List.take_succ, ih]
        congr 1
        rw [List.getElem?_eq_getElem hi, List.getElem?_eq_getElem hi₂]
        simp only [Option.toList_some]
        rw [show o₁[i] = o₁.get ⟨i, hi⟩ from rfl,
          show o₂[i] = o₂.get ⟨i, hi₂⟩ from rfl, hgeq]
      · have hi₂ : ¬ i < o₂.length := by omega
        rw [List.take_of_length_le ((by omega : o₁.length ≤ i + 1)),
          List.take_of_length_le ((by omega : o₂.length ≤ i + 1))]
        rw [List.take_of_length_le ((by omega : o₁.length ≤ i)),
          List.take_of_length_le ((by omega : o₂.length ≤ i))] at ih
        exact ih
  calc o₁ = o₁.take o₁.length := (List.take_length o₁).symm
    _ = o₂.take o₁.length := htake o₁.length
    _ = o₂ := by rw [hlen]; exact List.take_length o₂

/-- `getOrderedComponents` produces the same order on any permutation of
the component map. -/
theorem getOrdered_transfer {comps₁ comps₂ : List (String × Component V)}
    (hperm : comps₁.Perm comps₂) (hnd₁ : (keysOf comps₁).Nodup) :
    ∀ o₁, getOrderedComponents comps₁ = .ok o₁ →
      ∃ o₂, getOrderedComponents comps₂ = .ok o₂ ∧ o₁ = o₂ := by
  intro o₁ h₁
  have hnd₂ : (keysOf comps₂).Nodup := ((hperm.map Prod.fst).nodup_iff).mp hnd₁
  have hlook : ∀ k, lookupA comps₁ k = lookupA comps₂ k :=
    lookupA_perm hperm hnd₁
  have hdeps : ∀ n, depsOf comps₁ n = depsOf comps₂ n := by
    intro n
    unfold depsOf
    rw [hlook n]
  have hkeysmem : ∀ k, k ∈ keysOf comps₁ ↔ k ∈ keysOf comps₂ :=
    fun k => (hperm.map Prod.fst).mem_iff
  have hedge : ∀ a b, DepEdge comps₁ a b ↔ DepEdge comps₂ a b := by
    intro a b
    unfold DepEdge
    rw [hlook a, hlook b, hdeps a]
  have hcyc : HasCycle comps₁ ↔ HasCycle comps₂ := by
    unfold HasCycle
    constructor
    · rintro ⟨z, hz⟩
      exact ⟨z, Relation.TransGen.mono (fun a b h => (hedge a b).mp h) hz⟩
    · rintro ⟨z, hz⟩
      exact ⟨z, Relation.TransGen.mono (fun a b h => (hedge a b).mpr h) hz⟩
  have hready : ∀ em k, Ready comps₁ em k ↔ Ready comps₂ em k := by
    intro em k
    unfold Ready
    rw [hkeysmem k, hdeps k]
  obtain ⟨hnodup₁, hmem₁, htopo₁, hmin₁, hnm₁⟩ := getOrdered_ok_props hnd₁ h₁
  have hacyc₁ : ¬ HasCycle comps₁ := acyclic_of_topoOrder hnodup₁ hmem₁ htopo₁
  have hnm₂ : NoMissing comps₂ := by
    intro k hk x hx
    rw [← hkeysmem k] at hk
    rw [← hdeps k] at hx
    rw [← hkeysmem x]
    exact hnm₁ k hk x hx
  obtain ⟨o₂, h₂⟩ := getOrdered_ok_of_acyclic hnd₂ hnm₂ (fun h => hacyc₁ (hcyc.mpr h))
  obtain ⟨hnodup₂, hmem₂, htopo₂, hmin₂, -⟩ := getOrdered_ok_props hnd₂ h₂
  have hlen : o₁.length = o₂.length := by
    have p₁ : o₁.Perm (keysOf comps₁) :=
      (List.perm_ext_iff_of_nodup hnodup₁ hnd₁).mpr hmem₁
    have p₂ : o₂.Perm (keysOf comps₂) :=
      (List.perm_ext_iff_of_nodup hnodup₂ hnd₂).mpr hmem₂
    rw [p₁.length_eq, p₂.length_eq]
    exact ((hperm.map Prod.fst).length_eq : (keysOf comps₁).length = _)
  exact ⟨o₂, h₂, minFirst_unique hready hlen hmin₁ hmin₂⟩

/-- C7: over the same component set — any permutation of the map's
entries — `getOrderedComponents` produces the identical sequence, and
whenever several components are ready the lexicographically smallest name
is emitted first. -/
theorem c7_deterministic (comps₁ comps₂ : List (String × Component V))
    (hperm : comps₁.Perm comps₂) (hnd : (keysOf comps₁).Nodup) :
    (getOrderedComponents comps₁).toOption =
      (getOrderedComponents comps₂).toOption ∧
    ∀ order, getOrderedComponents comps₁ = .ok order →
      MinFirst comps₁ order := by
  have hnd₂ : (keysOf comps₂).Nodup := ((hperm.map Prod.fst).nodup_iff).mp hnd
  constructor
  · cases h₁ : getOrderedComponents comps₁ with
    | ok o₁ =>
      obtain ⟨o₂, h₂, heq⟩ := getOrdered_transfer hperm hnd o₁ h₁
      rw [h₂, heq]
    | error e₁ =>
      cases h₂ : getOrderedComponents comps₂ with
      | error e₂ => rfl
      | ok o₂ =>
        obtain ⟨o₁, h₁', -⟩ := getOrdered_transfer hperm.symm hnd₂ o₂ h₂
        rw [h₁'] at h₁
        exact absurd h₁ (by simp)
  · intro order h
    exact (getOrdered_ok_props hnd h).2.2.2.1

/-- Two presentations of the same two-component map. -/
def c7CompsA : List (String × Component Nat) :=
  [("a", define "a" 0 []), ("b", define "b" 1 ["a"])]

/-- The same map with the entries listed in the other order. -/
def c7CompsB : List (String × Component Nat) :=
  [("b", define "b" 1 ["a"]), ("a", define "a" 0 [])]

/-- C7 witness: the theorem applied to the two presentations. -/
theorem c7_deterministic_witness :
    (getOrderedComponents c7CompsA).toOption =
      (getOrderedComponents c7CompsB).toOption ∧
    ∀ order, getOrderedComponents c7CompsA = .ok order →
      MinFirst c7CompsA order :=
  c7_deterministic c7CompsA c7CompsB (by decide) (by decide)

/-! ### Claim C8: a start failure part-way through the order -/

/-- A registered record that is currently un-started (unregistered names
count as started; the loop never reaches a lifecycle call for them). -/
def unstartedB (comps : List (String × Component V)) (n : String) : Bool :=
  match lookupA comps n with
  | some c => !c.started
  | none => false

/-- `buildCtx` succeeds whenever every listed dependency is registered and
started. -/
theorem buildCtx_ok_of_started (comps : List (String × Component V))
    (name : String) :
    ∀ (l : List String) (ctx0 : Ctx V),
      (∀ d ∈ l, ∃ c, lookupA comps d = some c ∧ c.started = true) →
      ∃ ctx, buildCtx comps name l ctx0 = .ok ctx := by
  intro l
  induction l with
  | nil => intro ctx0 _; exact ⟨ctx0, rfl⟩
  | cons dep rest ih =>
    intro ctx0 h
    obtain ⟨c, hc, hs⟩ := h dep (List.mem_cons_self _ _)
    obtain ⟨ctx, hctx⟩ :=
      ih (updateA ctx0 dep c.inst) (fun d hd => h d (List.mem_cons_of_mem _ hd))
    refine ⟨ctx, ?_⟩
    simp only [buildCtx]
    rw [hc]
    dsimp only
    rw [hs, if_pos rfl]
    exact hctx

/-- Every dependency of every listed name is either already started in the
map or occurs earlier in the list — the property a topological suffix has
part-way through the start loop. -/
def DepsAvail (comps : List (String × Component V)) (l : List String) : Prop :=
  ∀ i (hi : i < l.length), ∀ d ∈ depsOf comps (l.get ⟨i, hi⟩),
    (∃ c, lookupA comps d = some c ∧ c.started = true) ∨ d ∈ l.take i

theorem depsAvail_head {comps : List (String × Component V)} {name : String}
    {rest : List String} (h : DepsAvail comps (name :: rest)) :
    ∀ d ∈ depsOf comps name, ∃ c, lookupA comps d = some c ∧ c.started = true := by
  intro d hd
  have h0 := h 0 (Nat.succ_pos _) d hd
  rcases h0 with h1 | h1
  · exact h1
  · exact absurd h1 (List.not_mem_nil d)

theorem depsAvail_tail {comps : List (String × Component V)} {name : String}
    {rest : List String} {comp comp' : Component V}
    (hl : lookupA comps name = some comp) (hsh : shape comp' = shape comp)
    (hs : comp'.started = true) (h : DepsAvail comps (name :: rest)) :
    DepsAvail (updateA comps name comp') rest := by
  have hss : SameShape (updateA comps name comp') comps := sameShape_updateA hl hsh
  intro i hi d hd
  rw [sameShape_depsOf hss] at hd
  have h1 := h (i + 1) (Nat.succ_lt_succ hi) d hd
  rcases h1 with h1 | h1
  · left
    obtain ⟨c, hc, hcs⟩ := h1
    by_cases hdn : name = d
    · exact ⟨comp', by rw [lookupA_updateA, if_pos hdn], hs⟩
    · refine ⟨c, ?_, hcs⟩
      rw [lookupA_updateA, if_neg hdn]
      exact hc
  · rw [List.take_succ_cons] at h1
    rcases List.mem_cons.mp h1 with rfl | h2
    · left
      exact ⟨comp', by rw [lookupA_updateA, if_pos rfl], hs⟩
    · right
      exact h2

/-- The start loop on a list it completes without error: no error is
returned, exactly the previously un-started listed components have their
lifecycle start invoked (once each, in list order), every listed component
ends up started, already-started records pass through untouched with their
instance written to the context, and unlisted names keep both their record
and their context binding. -/
theorem startLoop_ok (B : Behavior V) :
    ∀ (l : List String) (comps : List (String × Component V)) (sctx : Ctx V),
      l.Nodup → WellKeyed comps →
      (∀ n ∈ l, (lookupA comps n).isSome = true) →
      DepsAvail comps l →
      (∀ n ∈ l, ∀ c, lookupA comps n = some c → c.started = false →
        ∀ ctx, ∃ v, B.start n ctx = .ok v) →
      (startLoop B l comps sctx).2.2.2 = none ∧
      (startLoop B l comps sctx).2.2.1.map Event.name
        = l.filter (unstartedB comps) ∧
      (∀ n ∈ l, ∃ c', lookupA (startLoop B l comps sctx).1 n = some c' ∧
        c'.started = true) ∧
      (∀ n ∈ l, ∀ c, lookupA comps n = some c → c.started = true →
        lookupA (startLoop B l comps sctx).1 n = some c ∧
        lookupA (startLoop B l comps sctx).2.1 n = some c.inst) ∧
      (∀ n, n ∉ l → lookupA (startLoop B l comps sctx).1 n = lookupA comps n ∧
        lookupA (startLoop B l comps sctx).2.1 n = lookupA sctx n) := by
  intro l
  induction l with
  | nil =>
    intro comps sctx _ _ _ _ _
    exact ⟨rfl, rfl, fun n hn => absurd hn (List.not_mem_nil n),
      fun n hn => absurd hn (List.not_mem_nil n), fun n _ => ⟨rfl, rfl⟩⟩
  | cons name rest ih =>
    intro comps sctx hnd hwk hreg hda horacle
    have hnr : name ∉ rest := (List.nodup_cons.mp hnd).1
    have hndr : rest.Nodup := (List.nodup_cons.mp hnd).2
    have hregname := hreg name (List.mem_cons_self _ _)
    cases hl : lookupA comps name with
    | none => rw [hl] at hregname; exact absurd hregname (by simp)
    | some comp =>
      have hkey : comp.key = name := hwk name comp hl
      obtain ⟨ctx0, hbc⟩ := buildCtx_ok_of_started comps name comp.dependencies []
        (by
          have hd := depsAvail_head hda
          have hdeq : depsOf comps name = comp.dependencies := by
            unfold depsOf; rw [hl]
          rw [hdeq] at hd
          exact hd)
      cases hcs : comp.started with
      | true =>
        have hstep : Component.start B comp ctx0 = (comp, [], .ok comp.inst) := by
          simp [Component.start, hcs]
        have hss : SameShape (updateA comps name comp) comps :=
          sameShape_updateA hl rfl
        have hwk' : WellKeyed (updateA comps name comp) :=
          wellKeyed_updateA hwk hl rfl
        have hlku : ∀ n, n ≠ name →
            lookupA (updateA comps name comp) n = lookupA comps n := by
          intro n hn
          rw [lookupA_updateA, if_neg (fun hh => hn hh.symm)]
        have hreg' : ∀ n ∈ rest,
            (lookupA (updateA comps name comp) n).isSome = true := by
          intro n hn
          rw [sameShape_isSome hss]
          exact hreg n (List.mem_cons_of_mem _ hn)
        have hda' : DepsAvail (updateA comps name comp) rest :=
          depsAvail_tail hl rfl hcs hda
        have horacle' : ∀ n ∈ rest, ∀ c,
            lookupA (updateA comps name comp) n = some c → c.started = false →
            ∀ ctx, ∃ v, B.start n ctx = .ok v := by
          intro n hn c hc
          rw [hlku n (fun hh => hnr (hh ▸ hn))] at hc
          exact horacle n (List.mem_cons_of_mem _ hn) c hc
        obtain ⟨ih1, ih2, ih3, ih4, ih5⟩ := ih (updateA comps name comp)
          (updateA sctx name comp.inst) hndr hwk' hreg' hda' horacle'
        cases hS : startLoop B rest (updateA comps name comp)
            (updateA sctx name comp.inst) with
        | mk comps1 p =>
          obtain ⟨sctx1, evs1, r1⟩ := p
          rw [hS] at ih1 ih2 ih3 ih4 ih5
          have hrun : startLoop B (name :: rest) comps sctx =
              (comps1, sctx1, [] ++ evs1, r1) := by
            simp only [startLoop, hl, hbc, hstep, hS]
          rw [hrun]
          refine ⟨ih1, ?_, ?_, ?_, ?_⟩
          · simp only [List.nil_append]
            have hfname : unstartedB comps name = false := by
              unfold unstartedB
              rw [hl]
              simp [hcs]
            have hfc : (name :: rest).filter (unstartedB comps)
                = rest.filter (unstartedB comps) := by
              simp [List.filter_cons, hfname]
            rw [hfc, ih2]
            exact List.filter_congr (fun n hn => by
              unfold unstartedB
              rw [hlku n (fun hh => hnr (hh ▸ hn))])
          · intro n hn
            rcases List.mem_cons.mp hn with rfl | hn'
            · refine ⟨comp, ?_, hcs⟩
              rw [(ih5 n hnr).1, lookupA_updateA, if_pos rfl]
            · exact ih3 n hn'
          · intro n hn c hc hcst
            rcases List.mem_cons.mp hn with rfl | hn'
            · rw [hl] at hc
              cases hc
              constructor
              · rw [(ih5 n hnr).1, lookupA_updateA, if_pos rfl]
              · rw [(ih5 n hnr).2, lookupA_updateA, if_pos rfl]
            · have hc' : lookupA (updateA comps name comp) n = some c := by
                rw [hlku n (fun hh => hnr (hh ▸ hn'))]
                exact hc
              exact ih4 n hn' c hc' hcst
          · intro n hn
            have hn1 : n ≠ name := fun hh => hn (hh ▸ List.mem_cons_self _ _)
            have hn2 : n ∉ rest := fun hh => hn (List.mem_cons_of_mem _ hh)
            constructor
            · rw [(ih5 n hn2).1, hlku n hn1]
            · rw [(ih5 n hn2).2, lookupA_updateA, if_neg (fun hh => hn1 hh.symm)]
      | false =>
        obtain ⟨v, hv⟩ := horacle name (List.mem_cons_self _ _) comp hl hcs ctx0
        have hstep : Component.start B comp ctx0 =
            ({ comp with result := some v, started := true },
              [.startCall name ctx0], .ok v) := by
          simp [Component.start, hcs, hkey, hv]
        have hss : SameShape
            (updateA comps name { comp with result := some v, started := true })
            comps := sameShape_updateA hl rfl
        have hwk' : WellKeyed
            (updateA comps name { comp with result := some v, started := true }) :=
          wellKeyed_updateA hwk hl rfl
        have hlku : ∀ n, n ≠ name →
            lookupA (updateA comps name
              { comp with result := some v, started := true }) n
              = lookupA comps n := by
          intro n hn
          rw [lookupA_updateA, if_neg (fun hh => hn hh.symm)]
        have hreg' : ∀ n ∈ rest, (lookupA (updateA comps name
            { comp with result := some v, started := true }) n).isSome = true := by
          intro n hn
          rw [sameShape_isSome hss]
          exact hreg n (List.mem_cons_of_mem _ hn)
        have hda' : DepsAvail
            (updateA comps name { comp with result := some v, started := true })
            rest := depsAvail_tail hl rfl rfl hda
        have horacle' : ∀ n ∈ rest, ∀ c, lookupA (updateA comps name
            { comp with result := some v, started := true }) n = some c →
            c.started = false → ∀ ctx, ∃ w, B.start n ctx = .ok w := by
          intro n hn c hc
          rw [hlku n (fun hh => hnr (hh ▸ hn))] at hc
          exact horacle n (List.mem_cons_of_mem _ hn) c hc
        obtain ⟨ih1, ih2, ih3, ih4, ih5⟩ := ih
          (updateA comps name { comp with result := some v, started := true })
          (updateA sctx name v) hndr hwk' hreg' hda' horacle'
        cases hS : startLoop B rest
            (updateA comps name { comp with result := some v, started := true })
            (updateA sctx name v) with
        | mk comps1 p =>
          obtain ⟨sctx1, evs1, r1⟩ := p
          rw [hS] at ih1 ih2 ih3 ih4 ih5
          have hrun : startLoop B (name :: rest) comps sctx =
              (comps1, sctx1, Event.startCall name ctx0 :: evs1, r1) := by
            simp only [startLoop, hl, hbc, hstep, hS, List.singleton_append]
          rw [hrun]
          refine ⟨ih1, ?_, ?_, ?_, ?_⟩
          · have hfname : unstartedB comps name = true := by
              unfold unstartedB
              rw [hl]
              simp [hcs]
            have hfc : (name :: rest).filter (unstartedB comps)
                = name :: rest.filter (unstartedB comps) := by
              simp [List.filter_cons, hfname]
            rw [List.map_cons, hfc]
            congr 1
            rw [ih2]
            exact List.filter_congr (fun n hn => by
              unfold unstartedB
              rw [hlku n (fun hh => hnr (hh ▸ hn))])
          · intro n hn
            rcases List.mem_cons.mp hn with rfl | hn'
            · refine ⟨{ comp with result := some v, started := true }, ?_, rfl⟩
              rw [(ih5 n hnr).1, lookupA_updateA, if_pos rfl]
            · exact ih3 n hn'
          · intro n hn c hc hcst
            rcases List.mem_cons.mp hn with rfl | hn'
            · rw [hl] at hc
              cases hc
              rw [hcs] at hcst
              exact absurd hcst (by simp)
            · have hc' : lookupA (updateA comps name
                  { comp with result := some v, started := true }) n = some c := by
                rw [hlku n (fun hh => hnr (hh ▸ hn'))]
                exact hc
              exact ih4 n hn' c hc' hcst
          · intro n hn
            have hn1 : n ≠ name := fun hh => hn (hh ▸ List.mem_cons_self _ _)
            have hn2 : n ∉ rest := fun hh => hn (List.mem_cons_of_mem _ hh)
            constructor
            · rw [(ih5 n hn2).1, hlku n hn1]
            · rw [(ih5 n hn2).2, lookupA_updateA, if_neg (fun hh => hn1 hh.symm)]

/-- The start loop on `pre ++ b :: post` when everything in `pre` can
start but `b`'s lifecycle start fails with `e`: the loop aborts at `b`
with the name-wrapped error, having invoked exactly the previously
un-started components of `pre` and then `b` (once each, in order); every
component of `pre` ends up started while the record of every name outside
`pre` — `b` and the whole of `post` included — is untouched. -/
theorem startLoop_fail (B : Behavior V) (b e : String) :
    ∀ (pre post : List String) (comps : List (String × Component V))
      (sctx : Ctx V),
      (pre ++ b :: post).Nodup → WellKeyed comps →
      (∀ n ∈ pre ++ b :: post, (lookupA comps n).isSome = true) →
      DepsAvail comps (pre ++ b :: post) →
      (∀ n ∈ pre, ∀ c, lookupA comps n = some c → c.started = false →
        ∀ ctx, ∃ v, B.start n ctx = .ok v) →
      (∀ c, lookupA comps b = some c → c.started = false) →
      (∀ ctx, B.start b ctx = .error e) →
      (startLoop B (pre ++ b :: post) comps sctx).2.2.2 =
        some ("failed to start component " ++ b ++ ": " ++
          ("failed to start component: " ++ e)) ∧
      (startLoop B (pre ++ b :: post) comps sctx).2.2.1.map Event.name
        = pre.filter (unstartedB comps) ++ [b] ∧
      (∀ n ∈ pre, ∃ c', lookupA (startLoop B (pre ++ b :: post) comps sctx).1 n
        = some c' ∧ c'.started = true) ∧
      (∀ n, n ∉ pre →
        lookupA (startLoop B (pre ++ b :: post) comps sctx).1 n
          = lookupA comps n) := by
  intro pre
  induction pre with
  | nil =>
    intro post comps sctx hnd hwk hreg hda horacle hbc hbf
    have hregb := hreg b (by simp)
    cases hl : lookupA comps b with
    | none => rw [hl] at hregb; exact absurd hregb (by simp)
    | some comp =>
      have hkey : comp.key = b := hwk b comp hl
      have hcs : comp.started = false := hbc comp hl
      obtain ⟨ctx0, hbuild⟩ := buildCtx_ok_of_started comps b comp.dependencies []
        (by
          have hd := depsAvail_head (hda : DepsAvail comps (b :: post))
          have hdeq : depsOf comps b = comp.dependencies := by
            unfold depsOf; rw [hl]
          rw [hdeq] at hd
          exact hd)
      have hstep : Component.start B comp ctx0 =
          (comp, [.startCall b ctx0],
            .error ("failed to start component: " ++ e)) := by
        simp [Component.start, hcs, hkey, hbf ctx0]
      have hrun : startLoop B ([] ++ b :: post) comps sctx =
          (updateA comps b comp, sctx, [.startCall b ctx0],
            some ("failed to start component " ++ b ++ ": " ++
              ("failed to start component: " ++ e))) := by
        simp only [List.nil_append, startLoop, hl, hbuild, hstep]
      rw [hrun]
      refine ⟨rfl, rfl, fun n hn => absurd hn (List.not_mem_nil n), ?_⟩
      intro n _
      rw [lookupA_updateA]
      by_cases hnb : b = n
      · rw [if_pos hnb, ← hnb, hl]
      · rw [if_neg hnb]
  | cons name pre' ihp =>
    intro post comps sctx hnd hwk hreg hda horacle hbc hbf
    have hnr : name ∉ pre' ++ b :: post := (List.nodup_cons.mp hnd).1
    have hndr : (pre' ++ b :: post).Nodup := (List.nodup_cons.mp hnd).2
    have hnb : name ≠ b := fun hh => hnr (hh ▸ (by simp))
    have hregname := hreg name (List.mem_cons_self _ _)
    cases hl : lookupA comps name with
    | none => rw [hl] at hregname; exact absurd hregname (by simp)
    | some comp =>
      have hkey : comp.key = name := hwk name comp hl
      obtain ⟨ctx0, hbuild⟩ := buildCtx_ok_of_started comps name comp.dependencies []
        (by
          have hd := depsAvail_head hda
          have hdeq : depsOf comps name = comp.dependencies := by
            unfold depsOf; rw [hl]
          rw [hdeq] at hd
          exact hd)
      cases hcs : comp.started with
      | true =>
        have hstep : Component.start B comp ctx0 = (comp, [], .ok comp.inst) := by
          simp [Component.start, hcs]
        have hss : SameShape (updateA comps name comp) comps :=
          sameShape_updateA hl rfl
        have hwk' : WellKeyed (updateA comps name comp) :=
          wellKeyed_updateA hwk hl rfl
        have hlku : ∀ n, n ≠ name →
            lookupA (updateA comps name comp) n = lookupA comps n := by
          intro n hn
          rw [lookupA_updateA, if_neg (fun hh => hn hh.symm)]
        have hreg' : ∀ n ∈ pre' ++ b :: post,
            (lookupA (updateA comps name comp) n).isSome = true := by
          intro n hn
          rw [sameShape_isSome hss]
          exact hreg n (List.mem_cons_of_mem _ hn)
        have hda' : DepsAvail (updateA comps name comp) (pre' ++ b :: post) :=
          depsAvail_tail hl rfl hcs hda
        have horacle' : ∀ n ∈ pre', ∀ c,
            lookupA (updateA comps name comp) n = some c → c.started = false →
            ∀ ctx, ∃ v, B.start n ctx = .ok v := by
          intro n hn c hc
          rw [hlku n (fun hh => hnr (hh ▸ List.mem_append_left _ hn))] at hc
          exact horacle n (List.mem_cons_of_mem _ hn) c hc
        have hbc' : ∀ c, lookupA (updateA comps name comp) b = some c →
            c.started = false := by
          intro c hc
          rw [hlku b (fun hh => hnb hh.symm)] at hc
          exact hbc c hc
        obtain ⟨ih1, ih2, ih3, ih4⟩ := ihp post (updateA comps name comp)
          (updateA sctx name comp.inst) hndr hwk' hreg' hda' horacle' hbc' hbf
        cases hS : startLoop B (pre' ++ b :: post) (updateA comps name comp)
            (updateA sctx name comp.inst) with
        | mk comps1 p =>
          obtain ⟨sctx1, evs1, r1⟩ := p
          rw [hS] at ih1 ih2 ih3 ih4
          have hrun : startLoop B ((name :: pre') ++ b :: post) comps sctx =
              (comps1, sctx1, [] ++ evs1, r1) := by
            have hS' : startLoop B (pre'.append (b :: post))
                (updateA comps name comp) (updateA sctx name comp.inst)
                = (comps1, sctx1, evs1, r1) := hS
            simp only [List.cons_append, startLoop, hl, hbuild, hstep]
            rw [hS']
          rw [hrun]
          refine ⟨ih1, ?_, ?_, ?_⟩
          · simp only [List.nil_append]
            have hfname : unstartedB comps name = false := by
              unfold unstartedB
              rw [hl]
              simp [hcs]
            have hfc : (name :: pre').filter (unstartedB comps)
                = pre'.filter (unstartedB comps) := by
              simp [List.filter_cons, hfname]
            rw [hfc, ih2]
            congr 1
            exact List.filter_congr (fun n hn => by
              unfold unstartedB
              rw [hlku n (fun hh => hnr (hh ▸ List.mem_append_left _ hn))])
          · intro n hn
            rcases List.mem_cons.mp hn with rfl | hn'
            · refine ⟨comp, ?_, hcs⟩
              have hnp : n ∉ pre' := fun hh => hnr (List.mem_append_left _ hh)
              rw [ih4 n hnp, lookupA_updateA, if_pos rfl]
            · exact ih3 n hn'
          · intro n hn
            have hn1 : n ≠ name := fun hh => hn (hh ▸ List.mem_cons_self _ _)
            have hn2 : n ∉ pre' := fun hh => hn (List.mem_cons_of_mem _ hh)
            rw [ih4 n hn2, hlku n hn1]
      | false =>
        obtain ⟨v, hv⟩ := horacle name (List.mem_cons_self _ _) comp hl hcs ctx0
        have hstep : Component.start B comp ctx0 =
            ({ comp with result := some v, started := true },
              [.startCall name ctx0], .ok v) := by
          simp [Component.start, hcs, hkey, hv]
        have hss : SameShape
            (updateA comps name { comp with result := some v, started := true })
            comps := sameShape_updateA hl rfl
        have hwk' : WellKeyed
            (updateA comps name { comp with result := some v, started := true }) :=
          wellKeyed_updateA hwk hl rfl
        have hlku : ∀ n, n ≠ name →
            lookupA (updateA comps name
              { comp with result := some v, started := true }) n
              = lookupA comps n := by
          intro n hn
          rw [lookupA_updateA, if_neg (fun hh => hn hh.symm)]
        have hreg' : ∀ n ∈ pre' ++ b :: post, (lookupA (updateA comps name
            { comp with result := some v, started := true }) n).isSome = true := by
          intro n hn
          rw [sameShape_isSome hss]
          exact hreg n (List.mem_cons_of_mem _ hn)
        have hda' : DepsAvail
            (updateA comps name { comp with result := some v, started := true })
            (pre' ++ b :: post) := depsAvail_tail hl rfl rfl hda
        have horacle' : ∀ n ∈ pre', ∀ c, lookupA (updateA comps name
            { comp with result := some v, started := true }) n = some c →
            c.started = false → ∀ ctx, ∃ w, B.start n ctx = .ok w := by
          intro n hn c hc
          rw [hlku n (fun hh => hnr (hh ▸ List.mem_append_left _ hn))] at hc
          exact horacle n (List.mem_cons_of_mem _ hn) c hc
        have hbc' : ∀ c, lookupA (updateA comps name
            { comp with result := some v, started := true }) b = some c →
            c.started = false := by
          intro c hc
          rw [hlku b (fun hh => hnb hh.symm)] at hc
          exact hbc c hc
        obtain ⟨ih1, ih2, ih3, ih4⟩ := ihp post
          (updateA comps name { comp with result := some v, started := true })
          (updateA sctx name v) hndr hwk' hreg' hda' horacle' hbc' hbf
        cases hS : startLoop B (pre' ++ b :: post)
            (updateA comps name { comp with result := some v, started := true })
            (updateA sctx name v) with
        | mk comps1 p =>
          obtain ⟨sctx1, evs1, r1⟩ := p
          rw [hS] at ih1 ih2 ih3 ih4
          have hrun : startLoop B ((name :: pre') ++ b :: post) comps sctx =
              (comps1, sctx1, Event.startCall name ctx0 :: evs1, r1) := by
            have hS' : startLoop B (pre'.append (b :: post))
                (updateA comps name { comp with result := some v, started := true })
                (updateA sctx name v) = (comps1, sctx1, evs1, r1) := hS
            simp only [List.cons_append, startLoop, hl, hbuild, hstep,
              List.singleton_append]
            rw [hS']
            simp only [List.nil_append]
          rw [hrun]
          refine ⟨ih1, ?_, ?_, ?_⟩
          · have hfname : unstartedB comps name = true := by
              unfold unstartedB
              rw [hl]
              simp [hcs]
            have hfc : (name :: pre').filter (unstartedB comps)
                = name :: pre'.filter (unstartedB comps) := by
              simp [List.filter_cons, hfname]
            rw [List.map_cons, hfc, List.cons_append]
            congr 1
            rw [ih2]
            congr 1
            exact List.filter_congr (fun n hn => by
              unfold unstartedB
              rw [hlku n (fun hh => hnr (hh ▸ List.mem_append_left _ hn))])
          · intro n hn
            rcases List.mem_cons.mp hn with rfl | hn'
            · refine ⟨{ comp with result := some v, started := true }, ?_, rfl⟩
              have hnp : n ∉ pre' := fun hh => hnr (List.mem_append_left _ hh)
              rw [ih4 n hnp, lookupA_updateA, if_pos rfl]
            · exact ih3 n hn'
          · intro n hn
            have hn1 : n ≠ name := fun hh => hn (hh ▸ List.mem_cons_self _ _)
            have hn2 : n ∉ pre' := fun hh => hn (List.mem_cons_of_mem _ hh)
            rw [ih4 n hn2, hlku n hn1]

/-- C8: on a freshly created system, when the lifecycle behaviour succeeds
for every component before `b` in the computed order but `b`'s start fails
with `e`, `System.Start` returns the error wrapped with `b`'s name and
aborts: the lifecycle starts invoked are exactly the components before `b`
(once each, in order) followed by `b`, those earlier components are
started afterwards, every dependency of `b` lies before `b` in the order,
the records of `b` and of every later component are untouched and
un-started, and the system is not marked started. -/
theorem c8_fail_midway (B : Behavior V) (comps : List (String × Component V))
    (hnd : (keysOf comps).Nodup) (hwk : WellKeyed comps)
    (hfresh : ∀ p ∈ comps, p.2.started = false)
    (order pre post : List String) (b e : String)
    (hord : getOrderedComponents comps = .ok order)
    (hsplit : order = pre ++ b :: post)
    (hpre : ∀ n ∈ pre, ∀ ctx, ∃ v, B.start n ctx = .ok v)
    (hfail : ∀ ctx, B.start b ctx = .error e) :
    ((createSystem comps).start B).2.2 =
      some ("failed to start component " ++ b ++ ": " ++
        ("failed to start component: " ++ e)) ∧
    ((createSystem comps).start B).2.1.map Event.name = pre ++ [b] ∧
    ((createSystem comps).start B).1.started = false ∧
    (∀ d ∈ depsOf comps b, d ∈ pre) ∧
    (∀ n ∈ pre, ∃ c, lookupA ((createSystem comps).start B).1.components n
      = some c ∧ c.started = true) ∧
    (∀ n, n = b ∨ n ∈ post →
      lookupA ((createSystem comps).start B).1.components n = lookupA comps n ∧
      ∀ c, lookupA comps n = some c → c.started = false) := by
  subst hsplit
  obtain ⟨hnodup, hmem, htopo, -, -⟩ := getOrdered_ok_props hnd hord
  have hregall : ∀ n ∈ pre ++ b :: post, (lookupA comps n).isSome = true :=
    fun n hn => (lookupA_isSome_iff_mem_keysOf comps n).mpr ((hmem n).mp hn)
  have hfresh' : ∀ n c, lookupA comps n = some c → c.started = false :=
    fun n c hc => hfresh (n, c) (lookupA_mem hc)
  have hda : DepsAvail comps (pre ++ b :: post) :=
    fun i hi d hd => Or.inr (htopo i hi d hd)
  have hacyc : ¬ HasCycle comps := acyclic_of_topoOrder hnodup hmem htopo
  have hchk : checkCyclicDependencies comps = none :=
    checkCyclic_none_of_acyclic hacyc
  have horacle : ∀ n ∈ pre, ∀ c, lookupA comps n = some c → c.started = false →
      ∀ ctx, ∃ v, B.start n ctx = .ok v :=
    fun n hn _ _ _ => hpre n hn
  obtain ⟨f1, f2, f3, f4⟩ := startLoop_fail B b e pre post comps []
    hnodup hwk hregall hda horacle (fun c hc => hfresh' b c hc) hfail
  have hdisj := List.nodup_append.mp hnodup
  have hbpre : b ∉ pre := fun hh => hdisj.2.2 hh (List.mem_cons_self _ _)
  have hpostpre : ∀ n ∈ post, n ∉ pre :=
    fun n hn hh => hdisj.2.2 hh (List.mem_cons_of_mem _ hn)
  cases hS : startLoop B (pre ++ b :: post) comps [] with
  | mk comps1 p =>
    obtain ⟨sctx1, evs1, r1⟩ := p
    rw [hS] at f1 f2 f3 f4
    dsimp only at f1 f2 f3 f4
    subst f1
    have hrun : (createSystem comps).start B =
        ({ createSystem comps with components := comps1, context := sctx1 },
          evs1, some ("failed to start component " ++ b ++ ": " ++
            ("failed to start component: " ++ e))) := by
      unfold System.start createSystem
      rw [if_neg (by simp)]
      dsimp only
      rw [hchk]
      dsimp only
      rw [hord]
      dsimp only
      rw [hS]
    rw [hrun]
    refine ⟨rfl, ?_, rfl, ?_, ?_, ?_⟩
    · rw [f2]
      congr 1
      exact List.filter_eq_self.mpr (fun n hn => by
        have hr := hregall n (List.mem_append_left _ hn)
        unfold unstartedB
        cases hc : lookupA comps n with
        | none => rw [hc] at hr; exact absurd hr (by simp)
        | some c =>
          dsimp only
          rw [hfresh' n c hc]
          rfl)
    · intro d hd
      have hi : pre.length < (pre ++ b :: post).length := by
        rw [List.length_append, List.length_cons]
        omega
      have hget : (pre ++ b :: post).get ⟨pre.length, hi⟩ = b :=
        get_append_length pre b post hi
      have := htopo pre.length hi d (by rw [hget]; exact hd)
      rwa [List.take_left] at this
    · exact f3
    · intro n hn
      have hnp : n ∉ pre := by
        rcases hn with rfl | hn'
        · exact hbpre
        · exact hpostpre n hn'
      exact ⟨f4 n hnp, fun c hc => hfresh' n c hc⟩

/-- Components for the C8 witness: a three-stage chain `a ← b ← c`. -/
def c8Comps : List (String × Component Nat) :=
  [("a", define "a" 0 []), ("b", define "b" 1 ["a"]), ("c", define "c" 2 ["b"])]

/-- A behaviour whose start fails exactly on `b`. -/
def c8B : Behavior Nat :=
  ⟨fun n _ => if n = "b" then .error "boom" else .ok 7, fun _ _ => none⟩

/-- C8 witness: the failure-midway theorem applied to the concrete chain,
whose computed order is `a, b, c` with `b` failing. -/
theorem c8_fail_midway_witness :
    ((createSystem c8Comps).start c8B).2.2 =
      some ("failed to start component " ++ "b" ++ ": " ++
        ("failed to start component: " ++ "boom")) ∧
    ((createSystem c8Comps).start c8B).2.1.map Event.name = ["a"] ++ ["b"] ∧
    ((createSystem c8Comps).start c8B).1.started = false ∧
    (∀ d ∈ depsOf c8Comps "b", d ∈ ["a"]) ∧
    (∀ n ∈ ["a"], ∃ c, lookupA ((createSystem c8Comps).start c8B).1.components n
      = some c ∧ c.started = true) ∧
    (∀ n, n = "b" ∨ n ∈ ["c"] →
      lookupA ((createSystem c8Comps).start c8B).1.components n
        = lookupA c8Comps n ∧
      ∀ c, lookupA c8Comps n = some c → c.started = false) :=
  c8_fail_midway c8B c8Comps (by decide)
    (wellKeyed_of_forall _ (by decide)) (by decide)
    (["a"] ++ "b" :: ["c"]) ["a"] ["c"] "b" "boom" rfl rfl
    (by
      intro n hn ctx
      rw [List.mem_singleton] at hn
      subst hn
      exact ⟨7, rfl⟩)
    (fun ctx => rfl)

/-! ### Claim C9: System.Stop stops everything and returns the last error -/

/-- Specification-side reading of the claim's error clause: the most
recent stop failure along the processing order, wrapped with its
component's name (`none` when every stop succeeded).  Entries later in the
list are processed later, so their failure takes precedence. -/
def mostRecentStopFailure (B : Behavior V) (sctx : Ctx V) :
    List String → Option String
  | [] => none
  | n :: rest =>
    (mostRecentStopFailure B sctx rest).or
      (match B.stop n sctx with
       | some e => some ("failed to stop component " ++ n ++ ": " ++
           ("failed to stop component: " ++ e))
       | none => none)

/-- The code's error accumulator equals the specification's
most-recent-failure reading. -/
theorem stopFold_eq_mostRecent (B : Behavior V) (sctx : Ctx V) :
    ∀ (l : List String) (acc : Option String),
      stopFold B sctx l acc = (mostRecentStopFailure B sctx l).or acc := by
  intro l
  induction l with
  | nil => intro acc; rfl
  | cons n rest ih =>
    intro acc
    simp only [stopFold, mostRecentStopFailure]
    cases hbs : B.stop n sctx with
    | some e =>
      rw [ih]
      cases hmr : mostRecentStopFailure B sctx rest with
      | some z => rfl
      | none => rfl
    | none =>
      rw [ih]
      cases hmr : mostRecentStopFailure B sctx rest with
      | some z => rfl
      | none => rfl

/-- C9: stopping a started system (duplicate-free, well-keyed,
fully-registered, acyclic, every record started): every component's
lifecycle stop is invoked — in reverse order, even when earlier stops
fail — the returned value is the most recent stop failure wrapped with
its component's name (`none` when none failed), and the system is marked
not started in all cases. -/
theorem c9_stop_all (B : Behavior V) (s : System V)
    (hnd : (keysOf s.components).Nodup) (hwk : WellKeyed s.components)
    (hnm : NoMissing s.components) (hacyc : ¬ HasCycle s.components)
    (hss : s.started = true) (hall : ∀ p ∈ s.components, p.2.started = true) :
    ∃ order, getOrderedComponents s.components = .ok order ∧
      (s.stop B).2.1 = order.reverse.map Event.stopCall ∧
      (s.stop B).2.2 = mostRecentStopFailure B s.context order.reverse ∧
      (s.stop B).1.started = false := by
  obtain ⟨order, hord⟩ := getOrdered_ok_of_acyclic hnd hnm hacyc
  obtain ⟨hnodup, hmem, -, -, -⟩ := getOrdered_ok_props hnd hord
  refine ⟨order, hord, ?_⟩
  have hs1 : ∀ n ∈ order.reverse, ∃ c,
      lookupA s.components n = some c ∧ c.started = true := by
    intro n hn
    have hnk : n ∈ keysOf s.components := (hmem n).mp (List.mem_reverse.mp hn)
    have hsome := (lookupA_isSome_iff_mem_keysOf s.components n).mpr hnk
    cases hlk : lookupA s.components n with
    | none => rw [hlk] at hsome; exact absurd hsome (by simp)
    | some c => exact ⟨c, rfl, hall (n, c) (lookupA_mem hlk)⟩
  have hspec := stopLoop_spec B s.context order.reverse s.components none
    (List.nodup_reverse.mpr hnodup) hwk hs1
  cases hSL : stopLoop B s.context order.reverse s.components none with
  | mk comps' p =>
    obtain ⟨evs, r⟩ := p
    rw [hSL] at hspec
    have hrun : s.stop B =
        ({ s with components := comps', started := false }, evs, r) := by
      unfold System.stop
      rw [hss]
      rw [if_neg (by simp)]
      dsimp only
      rw [hord]
      dsimp only
      rw [hSL]
    rw [hrun]
    refine ⟨hspec.1, ?_, rfl⟩
    have h2 : r = stopFold B s.context order.reverse none := hspec.2.1
    rw [h2, stopFold_eq_mostRecent]
    cases hmr : mostRecentStopFailure B s.context order.reverse with
    | some z => rfl
    | none => rfl

/-- Started records for the C9 witness. -/
def c9Comps : List (String × Component Nat) :=
  [("a", ⟨"a", 0, [], some 0, true⟩),
   ("b", ⟨"b", 1, ["a"], some 1, true⟩)]

/-- A behaviour whose stop fails exactly on `a`. -/
def c9B : Behavior Nat :=
  ⟨fun _ _ => .ok 0, fun n _ => if n = "a" then some "ea" else none⟩

/-- The started system for the C9 witness. -/
def c9S : System Nat := ⟨c9Comps, true, [("a", 0), ("b", 1)]⟩

/-- C9 witness: the theorem applied to the concrete started system with
one failing stop. -/
theorem c9_stop_all_witness :
    ∃ order, getOrderedComponents c9S.components = .ok order ∧
      (c9S.stop c9B).2.1 = order.reverse.map Event.stopCall ∧
      (c9S.stop c9B).2.2 = mostRecentStopFailure c9B c9S.context order.reverse ∧
      (c9S.stop c9B).1.started = false :=
  c9_stop_all c9B c9S (by decide) (wellKeyed_of_forall _ (by decide))
    (by unfold NoMissing; decide) (acyclic_of_checkCyclic_none rfl)
    rfl (by decide)

/-! ### Claim C10: a failed stop keeps the record started; restart skips it -/

/-- Entry-wise agreement of two component maps up to the mutable
`result`/`started` fields: same keys in the same positions, each record of
the same shape. -/
def SameFrame (l₁ l₂ : List (String × Component V)) : Prop :=
  List.Forall₂ (fun p q => p.1 = q.1 ∧ shape p.2 = shape q.2) l₁ l₂

theorem sameFrame_refl : ∀ l : List (String × Component V), SameFrame l l
  | [] => List.Forall₂.nil
  | _ :: rest => List.Forall₂.cons ⟨rfl, rfl⟩ (sameFrame_refl rest)

theorem sameFrame_trans {l₁ l₂ l₃ : List (String × Component V)}
    (h₁ : SameFrame l₁ l₂) (h₂ : SameFrame l₂ l₃) : SameFrame l₁ l₃ := by
  induction h₁ generalizing l₃ with
  | nil => cases h₂; exact List.Forall₂.nil
  | cons hpq hrest ih =>
    cases h₂ with
    | cons hqc hrest₂ =>
      exact List.Forall₂.cons ⟨hpq.1.trans hqc.1, hpq.2.trans hqc.2⟩ (ih hrest₂)

theorem sameFrame_keysOf {l₁ l₂ : List (String × Component V)}
    (h : SameFrame l₁ l₂) : keysOf l₁ = keysOf l₂ := by
  induction h with
  | nil => rfl
  | cons hpq _ ih =>
    simp only [keysOf, List.map_cons] at ih ⊢
    rw [hpq.1, ih]

theorem sameFrame_sameShape {l₁ l₂ : List (String × Component V)}
    (h : SameFrame l₁ l₂) : SameShape l₁ l₂ := by
  intro k
  induction l₁ generalizing l₂ with
  | nil => cases h; rfl
  | cons p r₁ ih =>
    cases h with
    | cons hpq hrest =>
      rename_i q r₂
      obtain ⟨pk, pv⟩ := p
      obtain ⟨qk, qv⟩ := q
      obtain ⟨hk, hsh⟩ := hpq
      simp only at hk hsh
      simp only [lookupA]
      rw [hk]
      by_cases hkk : qk = k
      · rw [if_pos hkk, if_pos hkk, Option.map_some', Option.map_some', hsh]
      · rw [if_neg hkk, if_neg hkk]
        exact ih hrest

theorem wellKeyed_of_sameShape {l₁ l₂ : List (String × Component V)}
    (h : SameShape l₁ l₂) (hwk : WellKeyed l₂) : WellKeyed l₁ := by
  intro k c hc
  have hk := h k
  rw [hc] at hk
  cases h₂ : lookupA l₂ k with
  | none => rw [h₂] at hk; exact absurd hk (by simp)
  | some c₂ =>
    rw [h₂] at hk
    simp only [Option.map_some'] at hk
    have hk' : shape c = shape c₂ := Option.some.inj hk
    have hkey := congrArg (fun t : String × V × List String => t.1) hk'
    simp only [shape] at hkey
    rw [hkey]
    exact hwk k c₂ h₂

theorem hasCycle_iff_of_sameShape {l₁ l₂ : List (String × Component V)}
    (h : SameShape l₁ l₂) : HasCycle l₁ ↔ HasCycle l₂ := by
  have hedge : ∀ a b, DepEdge l₁ a b ↔ DepEdge l₂ a b := by
    intro a b
    unfold DepEdge
    rw [sameShape_isSome h a, sameShape_isSome h b, sameShape_depsOf h a]
  unfold HasCycle
  constructor
  · rintro ⟨z, hz⟩
    exact ⟨z, Relation.TransGen.mono (fun a b hab => (hedge a b).mp hab) hz⟩
  · rintro ⟨z, hz⟩
    exact ⟨z, Relation.TransGen.mono (fun a b hab => (hedge a b).mpr hab) hz⟩

theorem addEdges_keysEq {c₁ c₂ : List (String × Component V)}
    (hk : keysOf c₁ = keysOf c₂) (name : String) :
    ∀ (l : List String) (g : String → List String) (d : String → Int),
      addEdges c₁ name l g d = addEdges c₂ name l g d := by
  intro l
  induction l with
  | nil => intro g d; rfl
  | cons dep rest ih =>
    intro g d
    have h1 := lookupA_isSome_iff_mem_keysOf c₁ dep
    rw [hk] at h1
    have hsome : (lookupA c₁ dep).isSome = (lookupA c₂ dep).isSome :=
      Bool.eq_iff_iff.mpr (h1.trans (lookupA_isSome_iff_mem_keysOf c₂ dep).symm)
    simp only [addEdges]
    rw [hsome]
    by_cases hd : (lookupA c₂ dep).isSome = true
    · rw [if_pos hd, if_pos hd]
      exact ih _ _
    · rw [if_neg hd, if_neg hd]

theorem totalDeps_frame : ∀ {l₁ l₂ : List (String × Component V)},
    SameFrame l₁ l₂ → totalDeps l₁ = totalDeps l₂ := by
  intro l₁
  induction l₁ with
  | nil => intro l₂ h; cases h; rfl
  | cons p r₁ ih =>
    intro l₂ h
    cases h with
    | cons hpq hrest =>
      rename_i q r₂
      unfold totalDeps
      simp only [List.map_cons, List.sum_cons]
      have hdeps : p.2.dependencies = q.2.dependencies :=
        congrArg (fun t => t.2.2) hpq.2
      rw [hdeps]
      have hrec := ih hrest
      unfold totalDeps at hrec
      rw [hrec]

theorem buildGraph_frame {c₁ c₂ : List (String × Component V)}
    (hk : keysOf c₁ = keysOf c₂) :
    ∀ (l₁ l₂ : List (String × Component V)), SameFrame l₁ l₂ →
      ∀ g d, buildGraph c₁ l₁ g d = buildGraph c₂ l₂ g d := by
  intro l₁
  induction l₁ with
  | nil =>
    intro l₂ h g d
    cases h
    rfl
  | cons p r₁ ih =>
    intro l₂ h g d
    cases h with
    | cons hpq hrest =>
      rename_i q r₂
      obtain ⟨pk, pv⟩ := p
      obtain ⟨qk, qv⟩ := q
      obtain ⟨hkey, hsh⟩ := hpq
      simp only at hkey hsh
      have hdeps : pv.dependencies = qv.dependencies :=
        congrArg (fun t => t.2.2) hsh
      simp only [buildGraph]
      rw [hkey, hdeps, addEdges_keysEq hk]
      cases he : addEdges c₂ qk qv.dependencies g d with
      | error e => rfl
      | ok gd =>
        obtain ⟨g', d'⟩ := gd
        dsimp only
        exact ih r₂ hrest g' d'

/-- `getOrderedComponents` depends only on the frame of the component
map — keys, positions and dependency lists — never on the mutable
`result`/`started` fields. -/
theorem getOrdered_frame {l₁ l₂ : List (String × Component V)}
    (h : SameFrame l₁ l₂) :
    getOrderedComponents l₁ = getOrderedComponents l₂ := by
  have hk := sameFrame_keysOf h
  have hlen : l₁.length = l₂.length := List.Forall₂.length_eq h
  have htd := totalDeps_frame h
  unfold getOrderedComponents
  rw [buildGraph_frame hk l₁ l₂ h (fun _ => []) (fun _ => 0), hk, hlen, htd]

theorem shape_stop (B : Behavior V) (c : Component V) (ctx : Ctx V) :
    shape (Component.stop B c ctx).1 = shape c := by
  cases hc : c.started <;> cases hbs : B.stop c.key ctx <;>
    simp [Component.stop, hc, hbs, shape]

theorem sameFrame_updateA {l : List (String × Component V)} {k : String}
    {c c' : Component V} (hl : lookupA l k = some c)
    (hsh : shape c' = shape c) : SameFrame (updateA l k c') l := by
  induction l with
  | nil => simp [lookupA] at hl
  | cons p rest ih =>
    obtain ⟨pk, pv⟩ := p
    simp only [lookupA] at hl
    by_cases hpk : pk = k
    · rw [if_pos hpk] at hl
      cases hl
      simp only [updateA, if_pos hpk]
      exact List.Forall₂.cons ⟨hpk.symm, hsh⟩ (sameFrame_refl rest)
    · rw [if_neg hpk] at hl
      simp only [updateA, if_neg hpk]
      exact List.Forall₂.cons ⟨rfl, rfl⟩ (ih hl)

/-- The stop loop only toggles started flags: the resulting component map
has the same frame as the input. -/
theorem stopLoop_frame (B : Behavior V) (sctx : Ctx V) :
    ∀ (l : List String) (comps : List (String × Component V))
      (lastErr : Option String),
      SameFrame (stopLoop B sctx l comps lastErr).1 comps := by
  intro l
  induction l with
  | nil => intro comps lastErr; exact sameFrame_refl comps
  | cons name rest ih =>
    intro comps lastErr
    cases hl : lookupA comps name with
    | none =>
      have hrun : stopLoop B sctx (name :: rest) comps lastErr
          = stopLoop B sctx rest comps lastErr := by
        simp only [stopLoop, hl]
      rw [hrun]
      exact ih comps lastErr
    | some comp =>
      cases hcs : Component.stop B comp sctx with
      | mk comp' p =>
        obtain ⟨evs, r⟩ := p
        have hsh : shape comp' = shape comp := by
          have h0 := shape_stop B comp sctx
          rw [hcs] at h0
          exact h0
        cases r with
        | some e =>
          cases hS : stopLoop B sctx rest (updateA comps name comp')
              (some ("failed to stop component " ++ name ++ ": " ++ e)) with
          | mk comps1 p1 =>
            obtain ⟨evs1, r1⟩ := p1
            have hrun : stopLoop B sctx (name :: rest) comps lastErr
                = (comps1, evs ++ evs1, r1) := by
              simp only [stopLoop, hl, hcs, hS]
            rw [hrun]
            have h1 := ih (updateA comps name comp')
              (some ("failed to stop component " ++ name ++ ": " ++ e))
            rw [hS] at h1
            exact sameFrame_trans h1 (sameFrame_updateA hl hsh)
        | none =>
          cases hS : stopLoop B sctx rest (updateA comps name comp') lastErr with
          | mk comps1 p1 =>
            obtain ⟨evs1, r1⟩ := p1
            have hrun : stopLoop B sctx (name :: rest) comps lastErr
                = (comps1, evs ++ evs1, r1) := by
              simp only [stopLoop, hl, hcs, hS]
            rw [hrun]
            have h1 := ih (updateA comps name comp') lastErr
            rw [hS] at h1
            exact sameFrame_trans h1 (sameFrame_updateA hl hsh)

/-- C10: on a started, duplicate-free, well-keyed, fully-registered,
acyclic system where exactly component `x`'s lifecycle stop fails,
`System.Stop` leaves `x`'s record reporting `IsStarted() = true` while the
system itself is marked not started; a subsequent `System.Start` succeeds,
invokes the lifecycle start of exactly the components that stopped cleanly
(once each, in order, `x` excluded), marks the system started, and binds
`x` in the context to its stored wrapped instance without invoking its
lifecycle start. -/
theorem c10_failed_stop_restart (B : Behavior V) (s : System V)
    (hnd : (keysOf s.components).Nodup) (hwk : WellKeyed s.components)
    (hnm : NoMissing s.components) (hacyc : ¬ HasCycle s.components)
    (hss : s.started = true) (hall : ∀ p ∈ s.components, p.2.started = true)
    (x : String) (hx : x ∈ keysOf s.components) (e : String)
    (hxstop : B.stop x s.context = some e)
    (hothers : ∀ n, n ≠ x → ∀ ctx, B.stop n ctx = none)
    (hstart : ∀ n ctx, ∃ v, B.start n ctx = .ok v) :
    (s.stop B).1.started = false ∧
    (∃ c, lookupA (s.stop B).1.components x = some c ∧ c.isStarted = true) ∧
    ((s.stop B).1.start B).2.2 = none ∧
    ((s.stop B).1.start B).1.started = true ∧
    (∃ order, getOrderedComponents s.components = .ok order ∧
      ((s.stop B).1.start B).2.1.map Event.name
        = order.filter (fun n => !(n == x))) ∧
    (∃ c, lookupA s.components x = some c ∧
      lookupA ((s.stop B).1.start B).1.context x = some c.inst) := by
  obtain ⟨order, hord⟩ := getOrdered_ok_of_acyclic hnd hnm hacyc
  obtain ⟨hnodup, hmem, htopo, -, -⟩ := getOrdered_ok_props hnd hord
  have hxsome := (lookupA_isSome_iff_mem_keysOf s.components x).mpr hx
  cases hxl : lookupA s.components x with
  | none => rw [hxl] at hxsome; exact absurd hxsome (by simp)
  | some cx =>
    have hs1 : ∀ n ∈ order.reverse, ∃ c,
        lookupA s.components n = some c ∧ c.started = true := by
      intro n hn
      have hnk : n ∈ keysOf s.components := (hmem n).mp (List.mem_reverse.mp hn)
      have hsome := (lookupA_isSome_iff_mem_keysOf s.components n).mpr hnk
      cases hlk : lookupA s.components n with
      | none => rw [hlk] at hsome; exact absurd hsome (by simp)
      | some c => exact ⟨c, rfl, hall (n, c) (lookupA_mem hlk)⟩
    have hspec := stopLoop_spec B s.context order.reverse s.components none
      (List.nodup_reverse.mpr hnodup) hwk hs1
    have hframe := stopLoop_frame B s.context order.reverse s.components none
    cases hSL : stopLoop B s.context order.reverse s.components none with
    | mk comps' p =>
      obtain ⟨evs, r⟩ := p
      rw [hSL] at hspec hframe
      obtain ⟨hsp1, hsp2, hsp3, hsp4⟩ := hspec
      have hrunstop : s.stop B =
          ({ s with components := comps', started := false }, evs, r) := by
        unfold System.stop
        rw [hss]
        rw [if_neg (by simp)]
        dsimp only
        rw [hord]
        dsimp only
        rw [hSL]
      have hxrev : x ∈ order.reverse := List.mem_reverse.mpr ((hmem x).mpr hx)
      obtain ⟨cx', hcx'l, hcx'succ, hcx'fail⟩ := hsp3 x hxrev
      have hcx's : cx'.started = true := hcx'fail e hxstop
      have hshape : SameShape comps' s.components := sameFrame_sameShape hframe
      have hwk' : WellKeyed comps' := wellKeyed_of_sameShape hshape hwk
      have hacyc' : ¬ HasCycle comps' :=
        fun hc => hacyc ((hasCycle_iff_of_sameShape hshape).mp hc)
      have hchk' : checkCyclicDependencies comps' = none :=
        checkCyclic_none_of_acyclic hacyc'
      have hord' : getOrderedComponents comps' = .ok order := by
        rw [getOrdered_frame hframe]
        exact hord
      have hreg' : ∀ n ∈ order, (lookupA comps' n).isSome = true := by
        intro n hn
        rw [sameShape_isSome hshape]
        exact (lookupA_isSome_iff_mem_keysOf _ n).mpr ((hmem n).mp hn)
      have hda' : DepsAvail comps' order := by
        intro i hi d hd
        right
        rw [sameShape_depsOf hshape] at hd
        exact htopo i hi d hd
      have horacle' : ∀ n ∈ order, ∀ c, lookupA comps' n = some c →
          c.started = false → ∀ ctx, ∃ v, B.start n ctx = .ok v :=
        fun n _ _ _ _ ctx => hstart n ctx
      obtain ⟨o1, o2, o3, o4, o5⟩ := startLoop_ok B order comps' s.context
        hnodup hwk' hreg' hda' horacle'
      cases hS2 : startLoop B order comps' s.context with
      | mk comps2 p2 =>
        obtain ⟨sctx2, evs2, r2⟩ := p2
        rw [hS2] at o1 o2 o3 o4 o5
        dsimp only at o1 o2 o3 o4 o5
        subst o1
        have hrunstart : ((s.stop B).1.start B) =
            (⟨comps2, true, sctx2⟩, evs2, none) := by
          rw [hrunstop]
          unfold System.start
          rw [if_neg (by simp)]
          dsimp only
          rw [hchk']
          dsimp only
          rw [hord']
          dsimp only
          rw [hS2]
        refine ⟨?_, ?_, ?_, ?_, ?_, ?_⟩
        · rw [hrunstop]
        · refine ⟨cx', ?_, hcx's⟩
          rw [hrunstop]
          exact hcx'l
        · rw [hrunstart]
        · rw [hrunstart]
        · refine ⟨order, hord, ?_⟩
          rw [hrunstart]
          dsimp only
          rw [o2]
          refine List.filter_congr (fun n hn => ?_)
          by_cases hnx : n = x
          · subst hnx
            unfold unstartedB
            rw [hcx'l]
            dsimp only
            rw [hcx's]
            simp
          · obtain ⟨cn, hcnl, hcnsucc, -⟩ :=
              hsp3 n (List.mem_reverse.mpr hn)
            have hcns : cn.started = false :=
              hcnsucc (hothers n hnx s.context)
            unfold unstartedB
            rw [hcnl]
            dsimp only
            rw [hcns]
            simp [hnx]
        · refine ⟨cx, rfl, ?_⟩
          have ho4 := o4 x ((hmem x).mpr ((lookupA_isSome_iff_mem_keysOf
            s.components x).mp (by rw [hxl]; rfl))) cx' hcx'l hcx's
          have hinst : cx'.inst = cx.inst := by
            have hsx := hshape x
            rw [hcx'l, hxl] at hsx
            simp only [Option.map_some'] at hsx
            have hsx' : shape cx' = shape cx := Option.some.inj hsx
            have h2 := congrArg (fun t : String × V × List String => t.2.1) hsx'
            simp only [shape] at h2
            exact h2
          rw [hrunstart]
          dsimp only
          rw [ho4.2, hinst]

/-- Started records for the C10 witness: `b` (which depends on `a`) will
fail to stop. -/
def c10Comps : List (String × Component Nat) :=
  [("a", ⟨"a", 0, [], some 0, true⟩),
   ("b", ⟨"b", 1, ["a"], some 1, true⟩)]

/-- A behaviour whose stop fails exactly on `b` and whose start always
returns 5. -/
def c10B : Behavior Nat :=
  ⟨fun _ _ => .ok 5, fun n _ => if n = "b" then some "boom" else none⟩

/-- The started system for the C10 witness. -/
def c10S : System Nat := ⟨c10Comps, true, [("a", 0), ("b", 1)]⟩

/-- C10 witness: the theorem applied to the concrete two-component
system whose `b` fails to stop. -/
theorem c10_failed_stop_restart_witness :
    (c10S.stop c10B).1.started = false ∧
    (∃ c, lookupA (c10S.stop c10B).1.components "b" = some c ∧
      c.isStarted = true) ∧
    ((c10S.stop c10B).1.start c10B).2.2 = none ∧
    ((c10S.stop c10B).1.start c10B).1.started = true ∧
    (∃ order, getOrderedComponents c10S.components = .ok order ∧
      ((c10S.stop c10B).1.start c10B).2.1.map Event.name
        = order.filter (fun n => !(n == "b"))) ∧
    (∃ c, lookupA c10S.components "b" = some c ∧
      lookupA ((c10S.stop c10B).1.start c10B).1.context "b" = some c.inst) :=
  c10_failed_stop_restart c10B c10S (by decide)
    (wellKeyed_of_forall _ (by decide)) (by unfold NoMissing; decide)
    (acyclic_of_checkCyclic_none rfl) rfl (by decide)
    "b" (by decide) "boom" rfl
    (by
      intro n hn ctx
      show (if n = "b" then some "boom" else none) = none
      rw [if_neg hn])
    (fun n ctx => ⟨5, rfl⟩)

end DepGraph
